import Mathlib

/-!
A formal model of the sweetline syntax-highlighting core
(`src/native/sweetline/src/core/highlight.cpp`), together with proofs about
its behaviour.

Modelling conventions:
* Text is modelled at character granularity (`List Char`).  At this
  granularity the UTF-8 char↔byte conversions used by the source are the
  identity, and positions handed to and returned by the regex engine are
  character positions.
* The regex engine (oniguruma) is opaque in the source; it is modelled as a
  search function stored in each `StateRule`
  (`List Char → Nat → Option SearchResult`), returning the whole-match
  region and the capture-group regions, exactly the data the source reads
  out of an `OnigRegion`.
* The document buffer (`Document`) and the result-container headers are not
  part of the analysed sources; those definitions are modelled from the
  specification and are marked `Modelled from the spec:`.
-/

/-- A position inside a document: zero-based line, character column within
the line, and character index from the start of the document
(spec section 3, `Position`). -/
structure TextPosition where
  line : Nat
  column : Nat
  index : Nat
deriving DecidableEq, Repr

instance : Inhabited TextPosition := ⟨⟨0, 0, 0⟩⟩

/-- A text range.  The field `stop` renders the C++ field `end`, which is a
Lean keyword. -/
structure TextRange where
  start : TextPosition
  stop : TextPosition
deriving DecidableEq, Repr

instance : Inhabited TextRange := ⟨⟨default, default⟩⟩

/-- A styled token span.  Modelled from the spec: the default field values of
the C++ `TokenSpan` (its header is not among the analysed sources) use the
sentinel −1 for `goto_state` (spec section 3: "else a sentinel (−1)") and for
`state`, zeroed positions, and unset optionals. -/
structure TokenSpan where
  range : TextRange := default
  style_id : Int := 0
  state : Int := -1
  goto_state : Int := -1
  matched_text : Option (List Char) := none
  inline_style : Option (List Char) := none
deriving DecidableEq, Repr

instance : Inhabited TokenSpan := ⟨{}⟩

/-- An ordered sequence of token spans for one line. -/
structure LineHighlight where
  spans : List TokenSpan := []
deriving DecidableEq, Repr

instance : Inhabited LineHighlight := ⟨{}⟩

/-- One `LineHighlight` per document line. -/
structure DocumentHighlight where
  lines : List LineHighlight := []
deriving DecidableEq, Repr

/-- `LineHighlight::pushOrMergeSpan` on the underlying span list: if the
last span is column-adjacent to the new span and has the same style, its end
column and end index are extended; otherwise the new span is appended.  The
recursion rewrites the last element in place, exactly as the C++ mutation of
`spans.back()` does. -/
def pushOrMergeSpanList : List TokenSpan → TokenSpan → List TokenSpan
  | [], s => [s]
  | [last], s =>
    if last.range.stop.column = s.range.start.column ∧ last.style_id = s.style_id then
      [{ last with
          range := { last.range with
            stop := { last.range.stop with
              column := s.range.stop.column, index := s.range.stop.index } } }]
    else [last, s]
  | a :: b :: rest, s => a :: pushOrMergeSpanList (b :: rest) s

/-- `LineHighlight::pushOrMergeSpan` (highlight.cpp lines 33-52). -/
def LineHighlight.pushOrMergeSpan (hl : LineHighlight) (s : TokenSpan) : LineHighlight :=
  { spans := pushOrMergeSpanList hl.spans s }

/-- The data the source reads out of a successful `onig_search`: the
whole-match region (`start`/`stop`, i.e. the search return value and
`region->end[0]`) and the capture-group regions, indexed by absolute group
number; `none` stands for oniguruma's not-matched sentinel −1. -/
structure SearchResult where
  start : Nat
  stop : Nat
  groups : List (Option (Nat × Nat))
deriving DecidableEq, Repr

/-- `CaptureGroupMatch`: a matched capture group, in rule-local numbering,
with its style and character extent. -/
structure CaptureGroupMatch where
  group : Nat
  style : Int
  start : Nat
  length : Nat
deriving DecidableEq, Repr

/-- `MatchResult`.  Modelled from the spec: the defaults of the C++ struct
(header not among the analysed sources) are the unmatched state with
sentinel −1 for the state-transition and rule-index fields. -/
structure MatchResult where
  matched : Bool := false
  start : Nat := 0
  length : Nat := 0
  style : Int := 0
  goto_state : Int := -1
  token_rule_idx : Int := -1
  matched_group : Int := -1
  matched_text : List Char := []
  capture_groups : List CaptureGroupMatch := []
  sub_spans : List TokenSpan := []
deriving DecidableEq, Repr

mutual
/-- A compiled lexer state: its combined regex (modelled as a search
function), its token rules, and the forced end-of-line state transition. -/
inductive StateRule : Type where
  | mk (matcher : List Char → Nat → Option SearchResult)
      (token_rules : List TokenRule) (line_end_state : Int) : StateRule
/-- One alternative of a state's combined regex: its capture-group layout,
per-group styles, transition state, and optional sub-grammar. -/
inductive TokenRule : Type where
  | mk (group_offset_start : Nat) (group_count : Nat) (group_styles : List Int)
      (goto_state : Int) (sub_state_rule : Option StateRule) : TokenRule
end

def StateRule.matcher : StateRule → (List Char → Nat → Option SearchResult)
  | .mk m _ _ => m

def StateRule.token_rules : StateRule → List TokenRule
  | .mk _ t _ => t

def StateRule.line_end_state : StateRule → Int
  | .mk _ _ s => s

def TokenRule.group_offset_start : TokenRule → Nat
  | .mk a _ _ _ _ => a

def TokenRule.group_count : TokenRule → Nat
  | .mk _ b _ _ _ => b

def TokenRule.group_styles : TokenRule → List Int
  | .mk _ _ c _ _ => c

def TokenRule.goto_state : TokenRule → Int
  | .mk _ _ _ d _ => d

def TokenRule.sub_state_rule : TokenRule → Option StateRule
  | .mk _ _ _ _ e => e

/-- `TokenRule::getGroupStyleId`.  Modelled from the spec: style of capture
group `g`, read from `group_styles` (spec section 3, `TokenRule`). -/
def TokenRule.getGroupStyleId (tr : TokenRule) (g : Nat) : Int :=
  tr.group_styles.getD g 0

theorem TokenRule.sizeOf_of_sub (tr : TokenRule) (sub : StateRule)
    (h : tr.sub_state_rule = some sub) : sizeOf sub < sizeOf tr := by
  cases tr with
  | mk a b c d e =>
    simp only [TokenRule.sub_state_rule] at h
    subst h
    simp only [TokenRule.mk.sizeOf_spec, Option.some.sizeOf_spec]
    omega

theorem StateRule.sizeOf_of_mem (r : StateRule) (tr : TokenRule)
    (h : tr ∈ r.token_rules) : sizeOf tr < sizeOf r := by
  cases r with
  | mk m t s =>
    simp only [StateRule.token_rules] at h
    have := List.sizeOf_lt_of_mem h
    simp only [StateRule.mk.sizeOf_spec]
    omega

/-- `HighlightConfig` (recognized options, spec section 6). -/
structure HighlightConfig where
  inline_style : Bool := false
  show_index : Bool := false
deriving DecidableEq, Repr

/-- A compiled grammar.  Modelled from the spec: the C++ `SyntaxRule` class
(header not among the analysed sources) holds a map state-id → `StateRule`
and an inline-style lookup; `containsRule`/`getStateRule`/`getInlineStyle`
are the lookups the core calls.  Unknown states are recovered, never
surfaced (spec section 7), so `getStateRule` of an absent id yields an
inert rule (no matcher, no token rules, line-end sentinel −1). -/
structure SyntaxRule where
  states : List (Int × StateRule)
  inline_styles : List (Int × List Char) := []

/-- `SyntaxRule::kDefaultStateId` (spec section 3: `default_state_id ≡ 0`). -/
def SyntaxRule.kDefaultStateId : Int := 0

/-- The inert state rule returned for a state id missing from the grammar. -/
def StateRule.inert : StateRule := .mk (fun _ _ => none) [] (-1)

def SyntaxRule.containsRule (g : SyntaxRule) (s : Int) : Bool :=
  (g.states.find? (fun p => p.1 = s)).isSome

def SyntaxRule.getStateRule (g : SyntaxRule) (s : Int) : StateRule :=
  match g.states.find? (fun p => p.1 = s) with
  | some p => p.2
  | none => StateRule.inert

def SyntaxRule.getInlineStyle (g : SyntaxRule) (style : Int) : List Char :=
  match g.inline_styles.find? (fun p => p.1 = style) with
  | some p => p.2
  | none => []

/-- `LineHighlightAnalyzer::findMatchedRuleAndGroup`, rule-resolution part
(highlight.cpp lines 389-399): walk the token rules in declared order and
pick the first one whose rule-group-0 region equals the whole-match
region.  Returns the rule index together with the rule. -/
def findMatchedRuleAux (region : SearchResult) (ms me : Nat) :
    List TokenRule → Nat → Option (Nat × TokenRule)
  | [], _ => none
  | tr :: rest, i =>
    if region.groups.getD tr.group_offset_start none = some (ms, me) then some (i, tr)
    else findMatchedRuleAux region ms me rest (i + 1)

theorem findMatchedRuleAux_mem {region : SearchResult} {ms me : Nat}
    {trs : List TokenRule} {i j : Nat} {tr : TokenRule}
    (h : findMatchedRuleAux region ms me trs i = some (j, tr)) : tr ∈ trs := by
  induction trs generalizing i with
  | nil => simp [findMatchedRuleAux] at h
  | cons a rest ih =>
    simp only [findMatchedRuleAux] at h
    split at h
    · cases h; exact List.mem_cons_self _ _
    · exact List.mem_cons_of_mem _ (ih h)

/-- `findMatchedRuleAndGroup`, capture-group part (highlight.cpp lines
401-418): for each rule-local group `1..group_count`, if its absolute group
matched and lies within the whole-match region, record its style and
character extent. -/
def collectCaptureGroups (tr : TokenRule) (region : SearchResult)
    (ms me : Nat) : List CaptureGroupMatch :=
  (List.range tr.group_count).filterMap fun g0 =>
    let g := g0 + 1
    match region.groups.getD (g + tr.group_offset_start) none with
    | none => none
    | some (s, e) =>
      if ms ≤ s ∧ e ≤ me then
        some { group := g, style := tr.getGroupStyleId g, start := s, length := e - s }
      else none

/-- A gap span emitted inside the sub-grammar loop (highlight.cpp lines
319-328 and 369-378): only its columns, style and optional inline style are
set; the remaining fields keep their defaults. -/
def mkSubGapSpan (cfg : HighlightConfig) (lookup : Int → List Char)
    (a b : Nat) (style : Int) : TokenSpan :=
  { range := { start := { line := 0, column := a, index := 0 },
               stop := { line := 0, column := b, index := 0 } },
    style_id := style,
    inline_style := if cfg.inline_style then some (lookup style) else none }

/-- Shift a sub-span's columns into the coordinates of the enclosing match
(highlight.cpp lines 333-338: only the columns move). -/
def shiftSpanColumns (off : Nat) (s : TokenSpan) : TokenSpan :=
  { s with range := { s.range with
      start := { s.range.start with column := s.range.start.column + off },
      stop := { s.range.stop with column := s.range.stop.column + off } } }

/-- The spans contributed by one iteration of the sub-grammar loop for the
sub-match `sub_res` found at cursor `sub_pos` (highlight.cpp lines 318-362):
a gap span up to the sub-match if the sub-match starts later, then either
the sub-match's own sub-spans (shifted), or one span per capture group, or a
single span for the whole sub-match. -/
def subIterationSpans (cfg : HighlightConfig) (lookup : Int → List Char)
    (parentStyle : Int) (sub_pos : Nat) (sub_res : MatchResult) : List TokenSpan :=
  (if sub_pos < sub_res.start then
      [mkSubGapSpan cfg lookup sub_pos sub_res.start parentStyle]
    else [])
  ++ (if sub_res.sub_spans ≠ [] then
        sub_res.sub_spans.map (shiftSpanColumns sub_res.start)
      else if sub_res.capture_groups ≠ [] then
        sub_res.capture_groups.map fun g =>
          { range := { start := { line := 0, column := g.start + sub_res.start, index := 0 },
                       stop := { line := 0, column := g.start + g.length + sub_res.start, index := 0 } },
            style_id := g.style,
            inline_style := if cfg.inline_style then some (lookup g.style) else none }
      else
        [{ range := { start := { line := 0, column := sub_res.start, index := 0 },
                      stop := { line := 0, column := sub_res.start + sub_res.length, index := 0 } },
           style_id := sub_res.style,
           inline_style := if cfg.inline_style then some (lookup sub_res.style) else none }])

/-- The cursor position after consuming `sub_res` (highlight.cpp lines
364-366): past the sub-match, one further character if it was empty. -/
def subNextPos (sub_pos : Nat) (sub_res : MatchResult) : Nat :=
  let p := sub_res.start + sub_res.length
  if sub_res.length = 0 then p + 1 else p

/-- The sub-grammar loop of `matchAtPosition` (highlight.cpp lines 308-378),
generic in the sub-matcher.  `fuel` bounds the number of iterations; every
call in this development passes `fuel = sub_len`, which is exactly enough:
each iteration consumes one fuel and (for a forward-searching matcher)
advances `sub_pos` by at least one, so when fuel runs out the loop guard
`sub_pos < sub_len` has already failed and the `0` case coincides with the
C++ loop exit.  On a failed sub-match the loop breaks and the trailing gap
up to `sub_len` is emitted with the parent's style (lines 369-378). -/
def subSpansLoopG (cfg : HighlightConfig) (lookup : Int → List Char)
    (matchSub : List Char → Nat → MatchResult) (parentStyle : Int)
    (matched_text : List Char) (sub_len : Nat) : Nat → Nat → List TokenSpan
  | _, 0 => []
  | sub_pos, fuel + 1 =>
    if sub_pos < sub_len then
      let sub_res := matchSub matched_text sub_pos
      if sub_res.matched then
        subIterationSpans cfg lookup parentStyle sub_pos sub_res
          ++ subSpansLoopG cfg lookup matchSub parentStyle matched_text sub_len
              (subNextPos sub_pos sub_res) fuel
      else [mkSubGapSpan cfg lookup sub_pos sub_len parentStyle]
    else []

mutual
/-- Size of a state rule, dominating its sub-grammar nesting depth; used as
fuel for the recursive `matchAtPosition`. -/
def StateRule.size : StateRule → Nat
  | .mk _ trs _ => 1 + tokenRulesSize trs
/-- Summed sizes of a token-rule list. -/
def tokenRulesSize : List TokenRule → Nat
  | [] => 0
  | t :: ts => TokenRule.size t + tokenRulesSize ts
/-- Size of a token rule. -/
def TokenRule.size : TokenRule → Nat
  | .mk _ _ _ _ Option.none => 1
  | .mk _ _ _ _ (Option.some s) => 1 + StateRule.size s
end

theorem TokenRule.size_of_sub (tr : TokenRule) (sub : StateRule)
    (h : tr.sub_state_rule = some sub) : sub.size < tr.size := by
  cases tr with
  | mk a b c d e =>
    simp only [TokenRule.sub_state_rule] at h
    subst h
    simp [TokenRule.size]

theorem tokenRulesSize_of_mem {trs : List TokenRule} {tr : TokenRule}
    (h : tr ∈ trs) : tr.size ≤ tokenRulesSize trs := by
  induction trs with
  | nil => cases h
  | cons a rest ih =>
    rcases List.mem_cons.1 h with rfl | hmem
    · simp [tokenRulesSize]
    · have := ih hmem
      simp only [tokenRulesSize]
      omega

theorem StateRule.size_of_mem_sub {r : StateRule} {tr : TokenRule} {sub : StateRule}
    (hmem : tr ∈ r.token_rules) (hsub : tr.sub_state_rule = some sub) :
    sub.size < r.size := by
  cases r with
  | mk m trs les =>
    simp only [StateRule.token_rules] at hmem
    have h1 := TokenRule.size_of_sub tr sub hsub
    have h2 := tokenRulesSize_of_mem hmem
    simp only [StateRule.size]
    omega

/-- `LineHighlightAnalyzer::matchAtPosition` against a `StateRule`
(highlight.cpp lines 267-384), with explicit fuel bounding the sub-grammar
nesting depth: run the rule's combined regex at the cursor; reject absent
or zero-width matches; resolve the winning token rule and its capture
groups; and, if the winner carries a sub-grammar, tokenize the matched text
recursively against that sub-rule, collecting the sub-spans.  `lookup` is
the grammar's inline-style lookup, used when the config asks for inline
styles.  Every call passes `fuel ≥ rule.size`, which strictly dominates the
nesting depth, so the `0` case is unreachable
(`matchAtPositionF_congr`). -/
def matchAtPositionF (cfg : HighlightConfig) (lookup : Int → List Char) :
    Nat → StateRule → List Char → Nat → MatchResult
  | 0, _, _, _ => {}
  | fuel + 1, rule, text, start_char_pos =>
    match rule.matcher text start_char_pos with
    | none => {}
    | some region =>
      if region.stop ≤ region.start then {}
      else
        let ms := region.start
        let mlen := region.stop - region.start
        let mtext := (text.drop ms).take mlen
        let base : MatchResult :=
          { matched := true, start := ms, length := mlen, matched_text := mtext }
        match findMatchedRuleAux region ms region.stop rule.token_rules 0 with
        | none => base
        | some (idx, tr) =>
          let base2 : MatchResult :=
            { base with
                token_rule_idx := (idx : Int),
                goto_state := tr.goto_state,
                style := tr.getGroupStyleId 0,
                matched_group := (tr.group_offset_start : Int),
                capture_groups := collectCaptureGroups tr region ms region.stop }
          match tr.sub_state_rule with
          | none => base2
          | some sub =>
            let spans := subSpansLoopG cfg lookup
              (fun t p => matchAtPositionF cfg lookup fuel sub t p)
              base2.style mtext mtext.length 0 mtext.length
            { base2 with sub_spans := spans }

/-- The canonical entry: fuel `rule.size` never runs out. -/
def StateRule.matchAtPosition (cfg : HighlightConfig) (lookup : Int → List Char)
    (rule : StateRule) (text : List Char) (start_char_pos : Nat) : MatchResult :=
  matchAtPositionF cfg lookup rule.size rule text start_char_pos

theorem subSpansLoopG_congr {cfg : HighlightConfig} {lookup : Int → List Char}
    {m1 m2 : List Char → Nat → MatchResult} (h : ∀ t p, m1 t p = m2 t p)
    (parentStyle : Int) (matched_text : List Char) (sub_len : Nat) :
    ∀ sub_pos fuel,
      subSpansLoopG cfg lookup m1 parentStyle matched_text sub_len sub_pos fuel =
      subSpansLoopG cfg lookup m2 parentStyle matched_text sub_len sub_pos fuel := by
  intro sub_pos fuel
  induction fuel generalizing sub_pos with
  | zero => rfl
  | succ fuel ih =>
    simp only [subSpansLoopG, h matched_text sub_pos, ih]

/-- Fuel irrelevance: any fuel at least `rule.size` produces the same
result, so the canonical entry computes the unbounded recursion. -/
theorem matchAtPositionF_congr (cfg : HighlightConfig) (lookup : Int → List Char) :
    ∀ f1 f2 rule text pos, StateRule.size rule ≤ f1 → StateRule.size rule ≤ f2 →
      matchAtPositionF cfg lookup f1 rule text pos =
      matchAtPositionF cfg lookup f2 rule text pos := by
  intro f1
  induction f1 with
  | zero =>
    intro f2 rule text pos h1
    cases rule with
    | mk m trs les => simp [StateRule.size] at h1
  | succ f1 ih =>
    intro f2 rule text pos h1 h2
    match f2 with
    | 0 =>
      cases rule with
      | mk m trs les => simp [StateRule.size] at h2
    | f2 + 1 =>
      simp only [matchAtPositionF]
      cases hm : rule.matcher text pos with
      | none => rfl
      | some region =>
        simp only []
        split
        · rfl
        · cases hfind : findMatchedRuleAux region region.start region.stop rule.token_rules 0 with
          | none => rfl
          | some p =>
            obtain ⟨idx, tr⟩ := p
            dsimp only
            cases hsub : tr.sub_state_rule with
            | none => rfl
            | some sub =>
              have hlt : sub.size < rule.size :=
                StateRule.size_of_mem_sub (findMatchedRuleAux_mem hfind) hsub
              have hs1 : sub.size ≤ f1 := by omega
              have hs2 : sub.size ≤ f2 := by omega
              dsimp only
              rw [subSpansLoopG_congr (fun t p => ih f2 sub t p hs1 hs2)]

/-- One-step unfolding of `matchAtPosition` with the recursion expressed
through `matchAtPosition` itself. -/
theorem matchAtPosition_eq (cfg : HighlightConfig) (lookup : Int → List Char)
    (rule : StateRule) (text : List Char) (pos : Nat) :
    rule.matchAtPosition cfg lookup text pos =
      match rule.matcher text pos with
      | none => {}
      | some region =>
        if region.stop ≤ region.start then {}
        else
          let ms := region.start
          let mlen := region.stop - region.start
          let mtext := (text.drop ms).take mlen
          let base : MatchResult :=
            { matched := true, start := ms, length := mlen, matched_text := mtext }
          match findMatchedRuleAux region ms region.stop rule.token_rules 0 with
          | none => base
          | some (idx, tr) =>
            let base2 : MatchResult :=
              { base with
                  token_rule_idx := (idx : Int),
                  goto_state := tr.goto_state,
                  style := tr.getGroupStyleId 0,
                  matched_group := (tr.group_offset_start : Int),
                  capture_groups := collectCaptureGroups tr region ms region.stop }
            match tr.sub_state_rule with
            | none => base2
            | some sub =>
              let spans := subSpansLoopG cfg lookup
                (fun t p => sub.matchAtPosition cfg lookup t p)
                base2.style mtext mtext.length 0 mtext.length
              { base2 with sub_spans := spans } := by
  unfold StateRule.matchAtPosition
  have hsz : 1 ≤ rule.size := by
    cases rule with
    | mk m trs les => simp [StateRule.size]
  obtain ⟨f, hf⟩ : ∃ f, rule.size = f + 1 := ⟨rule.size - 1, by omega⟩
  rw [hf]
  simp only [matchAtPositionF]
  cases hm : rule.matcher text pos with
  | none => rfl
  | some region =>
    simp only []
    split
    · rfl
    · cases hfind : findMatchedRuleAux region region.start region.stop rule.token_rules 0 with
      | none => rfl
      | some p =>
        obtain ⟨idx, tr⟩ := p
        dsimp only
        cases hsub : tr.sub_state_rule with
        | none => rfl
        | some sub =>
          have hlt : sub.size < rule.size :=
            StateRule.size_of_mem_sub (findMatchedRuleAux_mem hfind) hsub
          dsimp only
          rw [subSpansLoopG_congr
            (fun t p => matchAtPositionF_congr cfg lookup f sub.size sub t p
              (by omega) (le_refl _))]

/-- `TextLineInfo`: the line number, start-of-line state and document char
offset handed to the line tokenizer. -/
structure TextLineInfo where
  line : Nat
  start_state : Int
  start_char_offset : Nat
deriving DecidableEq, Repr

/-- `LineAnalyzeResult`: spans of the line, end-of-line state, char count. -/
structure LineAnalyzeResult where
  highlight : LineHighlight := {}
  end_state : Int := 0
  char_count : Nat := 0
deriving DecidableEq, Repr

/-- `LineHighlightAnalyzer::matchAtPosition` against a state id
(highlight.cpp lines 256-265): an unknown state yields the default
(unmatched) result. -/
def SyntaxRule.matchAtPositionState (g : SyntaxRule) (cfg : HighlightConfig)
    (text : List Char) (pos : Nat) (state : Int) : MatchResult :=
  if g.containsRule state then
    (g.getStateRule state).matchAtPosition cfg g.getInlineStyle text pos
  else {}

/-- The spans pushed by `LineHighlightAnalyzer::addLineHighlightResult`
(highlight.cpp lines 424-492), in push order.  If the match carries
sub-spans, each sub-span is shifted to absolute line columns and stamped
with the line number, document index (`start_char_offset + column`) and the
current state; its other fields (style, goto sentinel, inline style) are
kept.  Otherwise, with no capture groups, a single span covers the whole
match; with capture groups, one span per group. -/
def emittedSpans (g : SyntaxRule) (cfg : HighlightConfig) (info : TextLineInfo)
    (syntax_state : Int) (mr : MatchResult) : List TokenSpan :=
  if mr.sub_spans ≠ [] then
    mr.sub_spans.map fun sub =>
      let sc := sub.range.start.column + mr.start
      let ec := sub.range.stop.column + mr.start
      { sub with
          range :=
            { start := { line := info.line, column := sc, index := info.start_char_offset + sc },
              stop := { line := info.line, column := ec, index := info.start_char_offset + ec } },
          state := syntax_state }
  else if mr.capture_groups = [] then
    [{ range :=
        { start := { line := info.line, column := mr.start,
                     index := info.start_char_offset + mr.start },
          stop := { line := info.line, column := mr.start + mr.length,
                    index := info.start_char_offset + mr.start + mr.length } },
       state := syntax_state,
       matched_text := some mr.matched_text,
       style_id := mr.style,
       inline_style := if cfg.inline_style then some (g.getInlineStyle mr.style) else none,
       goto_state := mr.goto_state }]
  else
    mr.capture_groups.map fun gm =>
      { range :=
          { start := { line := info.line, column := gm.start,
                       index := info.start_char_offset + gm.start },
            stop := { line := info.line, column := gm.start + gm.length,
                      index := info.start_char_offset + gm.start + gm.length } },
        state := syntax_state,
        style_id := gm.style,
        inline_style := if cfg.inline_style then some (g.getInlineStyle gm.style) else none,
        goto_state := mr.goto_state }

/-- `LineHighlightAnalyzer::addLineHighlightResult`: push every emitted span
through the merge policy, in order. -/
def addLineHighlightResult (g : SyntaxRule) (cfg : HighlightConfig)
    (hl : LineHighlight) (info : TextLineInfo) (syntax_state : Int)
    (mr : MatchResult) : LineHighlight :=
  (emittedSpans g cfg info syntax_state mr).foldl LineHighlight.pushOrMergeSpan hl

/-- The scan loop of `LineHighlightAnalyzer::analyzeLine` (highlight.cpp
lines 227-241).  `fuel` bounds the iterations; every call passes
`fuel = text.length`, which is exactly enough: each iteration consumes one
fuel and (for a forward-searching matcher) advances the cursor by at least
one, so when fuel runs out the guard `pos < text.length` has already
failed and the `0` case coincides with the C++ loop exit. -/
def analyzeLineLoop (g : SyntaxRule) (cfg : HighlightConfig) (text : List Char)
    (info : TextLineInfo) : Nat → Nat → Int → LineHighlight → LineHighlight × Int
  | 0, _, state, hl => (hl, state)
  | fuel + 1, pos, state, hl =>
    if pos < text.length then
      let mr := g.matchAtPositionState cfg text pos state
      if mr.matched then
        let hl' := addLineHighlightResult g cfg hl info state mr
        let state' := if 0 ≤ mr.goto_state then mr.goto_state else state
        analyzeLineLoop g cfg text info fuel (mr.start + mr.length) state' hl'
      else analyzeLineLoop g cfg text info fuel (pos + 1) state hl
    else (hl, state)

/-- `LineHighlightAnalyzer::analyzeLine` (highlight.cpp lines 214-249).  An
empty line returns immediately with the start state — the end-of-line state
transition is *not* applied to empty lines.  Otherwise the scan loop runs
and then the current state's `line_end_state`, if non-negative, replaces
the end state. -/
def analyzeLine (g : SyntaxRule) (cfg : HighlightConfig) (text : List Char)
    (info : TextLineInfo) : LineAnalyzeResult :=
  if text.isEmpty then
    { highlight := {}, end_state := info.start_state, char_count := 0 }
  else
    let r := analyzeLineLoop g cfg text info text.length 0 info.start_state {}
    let sr := g.getStateRule r.2
    let final_state := if 0 ≤ sr.line_end_state then sr.line_end_state else r.2
    { highlight := r.1, end_state := final_state, char_count := text.length }

/-- Split off the segment before the first `'\n'`, as `text.find('\n')` plus
`substr` does in `TextAnalyzer::analyzeText`. -/
def splitFirstNL : List Char → Option (List Char × List Char)
  | [] => none
  | c :: rest =>
    if c = '\n' then some ([], rest)
    else
      match splitFirstNL rest with
      | none => none
      | some (seg, after) => some (c :: seg, after)

theorem splitFirstNL_eq {t seg after : List Char}
    (h : splitFirstNL t = some (seg, after)) : t = seg ++ '\n' :: after := by
  induction t generalizing seg with
  | nil => simp [splitFirstNL] at h
  | cons c rest ih =>
    simp only [splitFirstNL] at h
    split at h
    · rename_i hc
      cases h
      simp [hc]
    · revert h
      match hr : splitFirstNL rest with
      | none => intro h; cases h
      | some (seg1, after1) =>
        intro h
        cases h
        simp [ih hr]

theorem splitFirstNL_length {t seg after : List Char}
    (h : splitFirstNL t = some (seg, after)) : after.length < t.length := by
  have := splitFirstNL_eq h
  subst this
  simp
  omega

/-- The line loop of `TextAnalyzer::analyzeText` (highlight.cpp lines
152-193): cut at each `'\n'`, strip a trailing `'\r'` from the segment,
tokenize it, and advance the line number, state, and char offset by
`char_count + (has_cr ? 1 : 0) + 1`; the final segment after the last
`'\n'` is always tokenized, `'\r'`-stripped as well. -/
def analyzeTextLoopF (g : SyntaxRule) (cfg : HighlightConfig) :
    Nat → List Char → Nat → Int → Nat → List LineHighlight
  | 0, _, _, _, _ => []
  | fuel + 1, text, line, state, offset =>
    match splitFirstNL text with
    | some (seg, rest) =>
      let has_cr := seg.getLast? == some '\r'
      let line_text := if has_cr then seg.dropLast else seg
      let r := analyzeLine g cfg line_text
        { line := line, start_state := state, start_char_offset := offset }
      r.highlight ::
        analyzeTextLoopF g cfg fuel rest (line + 1) r.end_state
          (offset + r.char_count + (if has_cr then 1 else 0) + 1)
    | none =>
      let has_cr := text.getLast? == some '\r'
      let line_text := if has_cr then text.dropLast else text
      let r := analyzeLine g cfg line_text
        { line := line, start_state := state, start_char_offset := offset }
      [r.highlight]

/-- The canonical entry: the loop consumes one fuel and at least one text
character (plus the newline) per iteration, so fuel `text.length + 1` never
runs out (`analyzeTextLoopF_congr`). -/
def analyzeTextLoop (g : SyntaxRule) (cfg : HighlightConfig)
    (text : List Char) (line : Nat) (state : Int) (offset : Nat) :
    List LineHighlight :=
  analyzeTextLoopF g cfg (text.length + 1) text line state offset

theorem analyzeTextLoopF_congr (g : SyntaxRule) (cfg : HighlightConfig) :
    ∀ f1 f2 text line state offset, text.length < f1 → text.length < f2 →
      analyzeTextLoopF g cfg f1 text line state offset =
      analyzeTextLoopF g cfg f2 text line state offset := by
  intro f1
  induction f1 with
  | zero => intro f2 text line state offset h1; omega
  | succ f1 ih =>
    intro f2 text line state offset h1 h2
    match f2 with
    | 0 => omega
    | f2 + 1 =>
      simp only [analyzeTextLoopF]
      cases hs : splitFirstNL text with
      | none => rfl
      | some p =>
        obtain ⟨seg, rest⟩ := p
        have hlen := splitFirstNL_length hs
        dsimp only
        rw [ih f2 rest _ _ _ (by omega) (by omega)]

/-- One-step unfolding of `analyzeTextLoop` with the recursion expressed
through `analyzeTextLoop` itself. -/
theorem analyzeTextLoop_eq (g : SyntaxRule) (cfg : HighlightConfig)
    (text : List Char) (line : Nat) (state : Int) (offset : Nat) :
    analyzeTextLoop g cfg text line state offset =
      match splitFirstNL text with
      | some (seg, rest) =>
        let has_cr := seg.getLast? == some '\r'
        let line_text := if has_cr then seg.dropLast else seg
        let r := analyzeLine g cfg line_text
          { line := line, start_state := state, start_char_offset := offset }
        r.highlight ::
          analyzeTextLoop g cfg rest (line + 1) r.end_state
            (offset + r.char_count + (if has_cr then 1 else 0) + 1)
      | none =>
        let has_cr := text.getLast? == some '\r'
        let line_text := if has_cr then text.dropLast else text
        let r := analyzeLine g cfg line_text
          { line := line, start_state := state, start_char_offset := offset }
        [r.highlight] := by
  have hw : analyzeTextLoop g cfg text line state offset =
      analyzeTextLoopF g cfg (text.length + 1) text line state offset := rfl
  rw [hw]
  simp only [analyzeTextLoopF]
  cases hs : splitFirstNL text with
  | none => rfl
  | some p =>
    obtain ⟨seg, rest⟩ := p
    have hlen := splitFirstNL_length hs
    dsimp only
    rw [analyzeTextLoopF_congr g cfg text.length (rest.length + 1) rest _ _ _
      (by omega) (by omega)]
    rfl

/-- `TextAnalyzer::analyzeText` (highlight.cpp lines 144-196).  Empty input
returns an *empty* `DocumentHighlight` (the early return at line 147);
otherwise one `LineHighlight` per `'\n'`-separated line, the last line
included even when empty. -/
def analyzeText (g : SyntaxRule) (cfg : HighlightConfig) (text : List Char) :
    DocumentHighlight :=
  if text.isEmpty then {}
  else { lines := analyzeTextLoop g cfg text 0 SyntaxRule.kDefaultStateId 0 }

/-- Modelled from the spec: the line-ending kinds of the document buffer
(spec section 6, `get_line(i) → {text, ending: LF|CRLF|CR|NONE}`). -/
inductive LineEnding : Type where
  | none | lf | cr | crlf
deriving DecidableEq, Repr

/-- Modelled from the spec: `Document::getLineEndingWidth` — 0 for NONE, 1
for LF/CR and 2 for CRLF (spec section 6). -/
def lineEndingWidth : LineEnding → Nat
  | .none => 0
  | .lf => 1
  | .cr => 1
  | .crlf => 2

/-- Modelled from the spec: one line of the document buffer; `text` holds
the line's characters without its ending. -/
structure DocumentLine where
  text : List Char := []
  ending : LineEnding := .none
deriving DecidableEq, Repr

instance : Inhabited DocumentLine := ⟨{}⟩

/-- Modelled from the spec: `Document::charIndexOfLine` — the character
offset of the start of line `n`, i.e. the sum over the preceding lines of
their char count plus their line-ending width (spec sections 4.4 and 6). -/
def charIndexOfLine (doc : List DocumentLine) (n : Nat) : Nat :=
  ((doc.take n).map fun l => l.text.length + lineEndingWidth l.ending).sum

/-- Modelled from the spec: `Document::getLineCharCount` — the per-line char
count by which the index fix-up advances (spec section 4.6 step 5).  It
includes the line-ending width: the spec requires the fix-up to restore
`index == line_start_char_offset(line) + column` (invariant 5), and
`charIndexOfLine (i+1) = charIndexOfLine i + getLineCharCount i` forces the
ending to be counted, consistently with the `+ line_ending_width` advance
of the analysis loops. -/
def getLineCharCount (doc : List DocumentLine) (i : Nat) : Nat :=
  (doc.getD i {}).text.length + lineEndingWidth (doc.getD i {}).ending

/-- The state owned by an `InternalDocumentAnalyzer`: the document, the
per-line end-of-line state vector `m_line_syntax_states_`, and the lines of
`m_highlight_`. -/
structure AnalyzerState where
  doc : List DocumentLine
  line_states : List Int
  highlight : List LineHighlight
deriving Repr

/-- The walk of `InternalDocumentAnalyzer::analyzeHighlight` (highlight.cpp
lines 513-523) over the remaining lines: tokenize each line, record its
end state and highlight, thread the state and advance the offset by
`char_count + line_ending_width`. -/
def analyzeDocLines (g : SyntaxRule) (cfg : HighlightConfig) :
    List DocumentLine → Nat → Int → Nat → List Int × List LineHighlight
  | [], _, _, _ => ([], [])
  | dl :: rest, line_num, state, offset =>
    let r := analyzeLine g cfg dl.text
      { line := line_num, start_state := state, start_char_offset := offset }
    let p := analyzeDocLines g cfg rest (line_num + 1) r.end_state
      (offset + r.char_count + lineEndingWidth dl.ending)
    (r.end_state :: p.1, r.highlight :: p.2)

/-- `InternalDocumentAnalyzer::analyzeHighlight` (highlight.cpp lines
502-525): full pass from line 0 in the default state at offset 0. -/
def analyzeHighlight (g : SyntaxRule) (cfg : HighlightConfig)
    (doc : List DocumentLine) : AnalyzerState :=
  let p := analyzeDocLines g cfg doc 0 SyntaxRule.kDefaultStateId 0
  { doc := doc, line_states := p.1, highlight := p.2 }

/-- `TokenSpan::operator==` (highlight.cpp lines 14-17): structural on
`range`, `style_id`, `state` and `goto_state`; `matched_text` and
`inline_style` do not participate.  Modelled from the spec: the `Range` and
`Position` comparisons (headers not among the analysed sources) are
structural, so the position's `line`, `column` and `index` all compare
(spec section 3: "Equality is structural across `range`, `style_id`,
`state`, `goto_state`"). -/
def TokenSpan.beqCode (a b : TokenSpan) : Bool :=
  a.range == b.range && a.style_id == b.style_id && a.state == b.state &&
    a.goto_state == b.goto_state

/-- `LineHighlight::operator==` (highlight.cpp lines 54-69): same number of
spans, pairwise `TokenSpan::operator==`. -/
def LineHighlight.beqCode (a b : LineHighlight) : Bool :=
  a.spans.length == b.spans.length &&
    (List.zip a.spans b.spans).all fun p => p.1.beqCode p.2

/-- Modelled from the spec: `DocumentHighlight` equality is pairwise over
the lines (spec section 3). -/
def docLinesBeqCode (a b : List LineHighlight) : Bool :=
  a.length == b.length && (List.zip a b).all fun p => p.1.beqCode p.2

/-- Modelled from the spec: an edit handed to `Document::patch` — the lines
`startLine..endLine` (inclusive) of the document are replaced by
`newLines`.  The patched region of a real patch always holds at least one
line (the merged remainders of the boundary lines), so `newLines ≠ []` for
every well-formed edit. -/
structure EditSpec where
  startLine : Nat
  endLine : Nat
  newLines : List DocumentLine
deriving Repr

/-- Modelled from the spec: the effect of `Document::patch` on the line
buffer (spec section 6). -/
def applyEdit (doc : List DocumentLine) (e : EditSpec) : List DocumentLine :=
  doc.take e.startLine ++ e.newLines ++ doc.drop (e.endLine + 1)

/-- A well-formed edit for the current document. -/
def EditSpec.valid (e : EditSpec) (doc : List DocumentLine) : Prop :=
  e.startLine ≤ e.endLine ∧ e.endLine < doc.length ∧ e.newLines ≠ []

/-- The vector surgery of `analyzeHighlightIncremental` (highlight.cpp lines
537-548) applied to `m_line_syntax_states_` and `m_highlight_->lines`: with
`line_change = nNew − (endLine − startLine + 1)`, erase the entries
`endLine + line_change + 1 .. endLine` when `line_change < 0` (note
`endLine + line_change + 1 = startLine + nNew`), insert `line_change`
default entries after `endLine` when `line_change > 0`. -/
def spliceVec {A : Type} [Inhabited A] (v : List A) (startLine endLine nNew : Nat) :
    List A :=
  let oldN := endLine - startLine + 1
  if nNew < oldN then v.take (startLine + nNew) ++ v.drop (endLine + 1)
  else if oldN < nNew then
    v.take (endLine + 1) ++ List.replicate (nNew - oldN) default ++ v.drop (endLine + 1)
  else v

/-- The re-tokenization loop of `analyzeHighlightIncremental` (highlight.cpp
lines 550-589).  Arguments after `change_end`: fuel, current line, current
state, line start index, state vector, highlight lines.  Returns the line
after the last one processed, the running index, and the updated vectors.
Every call passes `fuel = doc.length − line`, exactly the number of
remaining lines, so the `0` case coincides with the `line < total` exit.
The stability check (lines 571-586) reads the old state and old highlight
before overwriting the slot, and uses the C++ equality `beqCode`. -/
def incrementalLoop (g : SyntaxRule) (cfg : HighlightConfig)
    (doc : List DocumentLine) (change_end : Nat) :
    Nat → Nat → Int → Nat → List Int → List LineHighlight →
      Nat × Nat × List Int × List LineHighlight
  | 0, line, _, idx, states, lines => (line, idx, states, lines)
  | fuel + 1, line, cur, idx, states, lines =>
    if line < doc.length then
      let old_state := states.getD line 0
      let dl := doc.getD line {}
      let r := analyzeLine g cfg dl.text
        { line := line, start_state := cur, start_char_offset := idx }
      let states' := states.set line r.end_state
      let stable := decide (change_end < line) && old_state == r.end_state &&
        LineHighlight.beqCode (lines.getD line {}) r.highlight
      let lines' := lines.set line r.highlight
      let idx' := idx + r.char_count + lineEndingWidth dl.ending
      if stable then (line + 1, idx', states', lines')
      else incrementalLoop g cfg doc change_end fuel (line + 1) r.end_state idx' states' lines'
    else (line, idx, states, lines)

/-- The trailing index fix-up of `analyzeHighlightIncremental`
(highlight.cpp lines 591-603): for each remaining line, rewrite every
span's start and end `index` to `line_start_index + column` and advance
`line_start_index` by the per-line char count.  Arguments after `doc`:
fuel (= remaining line count), current line, running index, lines. -/
def fixupIndices (doc : List DocumentLine) :
    Nat → Nat → Nat → List LineHighlight → List LineHighlight
  | 0, _, _, lines => lines
  | fuel + 1, line, idx, lines =>
    if line < doc.length then
      let hl := lines.getD line {}
      let hl' : LineHighlight :=
        { spans := hl.spans.map fun span =>
            { span with
                range := { span.range with
                  start := { span.range.start with index := idx + span.range.start.column },
                  stop := { span.range.stop with index := idx + span.range.stop.column } } } }
      fixupIndices doc fuel (line + 1) (idx + getLineCharCount doc line) (lines.set line hl')
    else lines

/-- `InternalDocumentAnalyzer::analyzeHighlightIncremental` (highlight.cpp
lines 527-605): patch the document, splice the state and highlight vectors,
seed the re-tokenization with `S[change_start − 1]` (or the default state
at the top), run the loop from `change_start` at
`charIndexOfLine change_start` until stable or end, then, if `show_index`
is set, fix up the indices of the remaining lines.  `change_end` is
`range.end.line + line_change = startLine + nNew − 1` (the C++ computes it
with signed arithmetic; for a well-formed edit `nNew ≥ 1`, making the value
non-negative and equal to this `Nat` expression). -/
def analyzeHighlightIncremental (g : SyntaxRule) (cfg : HighlightConfig)
    (st : AnalyzerState) (e : EditSpec) : AnalyzerState :=
  let doc' := applyEdit st.doc e
  let nNew := e.newLines.length
  let change_start := e.startLine
  let change_end := e.startLine + nNew - 1
  let states0 := spliceVec st.line_states e.startLine e.endLine nNew
  let lines0 := spliceVec st.highlight e.startLine e.endLine nNew
  let cur := if 0 < change_start then states0.getD (change_start - 1) 0
    else SyntaxRule.kDefaultStateId
  let idx0 := charIndexOfLine doc' change_start
  match incrementalLoop g cfg doc' change_end (doc'.length - change_start)
      change_start cur idx0 states0 lines0 with
  | (lineEnd, idxEnd, states1, lines1) =>
    let lines2 :=
      if cfg.show_index then fixupIndices doc' (doc'.length - lineEnd) lineEnd idxEnd lines1
      else lines1
    { doc := doc', line_states := states1, highlight := lines2 }

/-- The regex-adapter contract (spec section 4.1): `search` performs a
forward search, finding the earliest match at or after the given offset,
and reports regions within the haystack. -/
def matcherWF (m : List Char → Nat → Option SearchResult) : Prop :=
  ∀ text pos res, m text pos = some res → pos ≤ res.start ∧ res.stop ≤ text.length

/-- A state rule whose matcher, and recursively the matchers of all its
sub-grammars, satisfy the regex-adapter contract. -/
def StateRuleWF : StateRule → Prop
  | r => matcherWF r.matcher ∧
      ∀ tr, tr ∈ r.token_rules → ∀ sub, tr.sub_state_rule = some sub → StateRuleWF sub
termination_by r => r.size
decreasing_by
  exact StateRule.size_of_mem_sub (by assumption) (by assumption)

theorem StateRuleWF_def (r : StateRule) :
    StateRuleWF r ↔ matcherWF r.matcher ∧
      ∀ tr, tr ∈ r.token_rules → ∀ sub, tr.sub_state_rule = some sub → StateRuleWF sub := by
  rw [StateRuleWF]

/-- A grammar all of whose state rules are well-formed. -/
def SyntaxRuleWF (g : SyntaxRule) : Prop :=
  ∀ p, p ∈ g.states → StateRuleWF p.2

theorem getStateRule_wf {g : SyntaxRule} (hg : SyntaxRuleWF g) {s : Int}
    (hs : g.containsRule s = true) : StateRuleWF (g.getStateRule s) := by
  unfold SyntaxRule.containsRule at hs
  unfold SyntaxRule.getStateRule
  cases hfind : g.states.find? (fun p => p.1 = s) with
  | none => rw [hfind] at hs; simp at hs
  | some p => exact hg p (List.mem_of_find?_eq_some hfind)

/-- Equality of token spans on the fields the C++ equality compares, minus
the positions' `line` and `index` components (those are stamped from the
line number and the document offset at emission time). -/
def spanEqModLI (a b : TokenSpan) : Prop :=
  a.range.start.column = b.range.start.column ∧
  a.range.stop.column = b.range.stop.column ∧
  a.style_id = b.style_id ∧ a.state = b.state ∧ a.goto_state = b.goto_state

def lineEqModLI (a b : LineHighlight) : Prop :=
  List.Forall₂ spanEqModLI a.spans b.spans

def docEqModLI (a b : List LineHighlight) : Prop :=
  List.Forall₂ lineEqModLI a b

/-- Index of the first character satisfying `p`, if any. -/
def firstIdxWhere (p : Char → Bool) : List Char → Option Nat
  | [] => none
  | c :: rest => if p c then some 0 else (firstIdxWhere p rest).map (· + 1)

theorem firstIdxWhere_lt {p : Char → Bool} {l : List Char} {i : Nat}
    (h : firstIdxWhere p l = some i) : i < l.length := by
  induction l generalizing i with
  | nil => simp [firstIdxWhere] at h
  | cons c rest ih =>
    simp only [firstIdxWhere] at h
    split at h
    · cases h; simp
    · cases hr : firstIdxWhere p rest with
      | none => rw [hr] at h; cases h
      | some j =>
        rw [hr] at h
        simp only [Option.map] at h
        cases h
        have := ih hr
        simp only [List.length_cons]
        omega

/-- A matcher for single characters from `cs`: the earliest such character
at or after the search position is the whole match, also reported as
absolute capture group 1 (the layout of a one-alternative grammar). -/
def charSetMatcher (cs : List Char) : List Char → Nat → Option SearchResult :=
  fun text pos =>
    match firstIdxWhere (fun c => cs.contains c) (text.drop pos) with
    | none => none
    | some j =>
      some { start := pos + j, stop := pos + j + 1,
             groups := [some (pos + j, pos + j + 1), some (pos + j, pos + j + 1)] }

theorem charSetMatcher_wf (cs : List Char) : matcherWF (charSetMatcher cs) := by
  intro text pos res h
  unfold charSetMatcher at h
  cases hf : firstIdxWhere (fun c => cs.contains c) (text.drop pos) with
  | none => rw [hf] at h; cases h
  | some j =>
    rw [hf] at h
    cases h
    have := firstIdxWhere_lt hf
    simp only [List.length_drop] at this
    dsimp only
    exact ⟨by omega, by omega⟩

/-- Whether `pat` occurs in `text` at position `i`. -/
def occursAt (pat text : List Char) (i : Nat) : Bool :=
  (text.drop i).take pat.length == pat

/-- First position in `pos ..< text.length` where `pat` occurs; fueled scan. -/
def firstOccurFrom (pat text : List Char) : Nat → Nat → Option Nat
  | 0, _ => none
  | fuel + 1, pos =>
    if pos < text.length then
      if occursAt pat text pos then some pos
      else firstOccurFrom pat text fuel (pos + 1)
    else none

theorem firstOccurFrom_spec {pat text : List Char} :
    ∀ {fuel pos i : Nat}, firstOccurFrom pat text fuel pos = some i →
      pos ≤ i ∧ i < text.length ∧ occursAt pat text i = true := by
  intro fuel
  induction fuel with
  | zero => intro pos i h; simp [firstOccurFrom] at h
  | succ fuel ih =>
    intro pos i h
    simp only [firstOccurFrom] at h
    split at h
    · split at h
      · cases h
        refine ⟨le_refl _, by assumption, by assumption⟩
      · have := ih h
        exact ⟨by omega, this.2⟩
    · cases h

theorem occursAt_length {pat text : List Char} {i : Nat} (hi : i ≤ text.length)
    (h : occursAt pat text i = true) : i + pat.length ≤ text.length := by
  unfold occursAt at h
  have hlen : ((text.drop i).take pat.length).length = pat.length := by
    rw [beq_iff_eq] at h
    rw [h]
  simp only [List.length_take, List.length_drop] at hlen
  have := min_eq_left_iff.mp hlen
  omega

/-- A matcher for the literal string `pat`: the earliest occurrence at or
after the search position is the whole match, also reported as absolute
capture group 1. -/
def literalMatcher (pat : List Char) : List Char → Nat → Option SearchResult :=
  fun text pos =>
    match firstOccurFrom pat text (text.length - pos) pos with
    | none => none
    | some i =>
      some { start := i, stop := i + pat.length,
             groups := [some (i, i + pat.length), some (i, i + pat.length)] }

theorem literalMatcher_wf (pat : List Char) : matcherWF (literalMatcher pat) := by
  intro text pos res h
  unfold literalMatcher at h
  cases hf : firstOccurFrom pat text (text.length - pos) pos with
  | none => rw [hf] at h; cases h
  | some i =>
    rw [hf] at h
    cases h
    obtain ⟨h1, h2, h3⟩ := firstOccurFrom_spec hf
    exact ⟨h1, occursAt_length (by omega) h3⟩

/-- A state with a single token rule driven by `m`: the rule's whole match
is absolute group 1, no capture groups, no sub-grammar. -/
def mkSimpleRule (m : List Char → Nat → Option SearchResult)
    (style goto_st line_end : Int) : StateRule :=
  .mk m [.mk 1 0 [style] goto_st none] line_end

theorem mkSimpleRule_wf (m : List Char → Nat → Option SearchResult)
    (style goto_st line_end : Int) (hm : matcherWF m) :
    StateRuleWF (mkSimpleRule m style goto_st line_end) := by
  rw [StateRuleWF_def]
  constructor
  · exact hm
  · intro tr htr sub hsub
    unfold mkSimpleRule at htr
    simp only [StateRule.token_rules] at htr
    rcases List.mem_singleton.1 htr with rfl
    simp [TokenRule.sub_state_rule] at hsub

/-- No two adjacent spans are mergeable: the merge-closure predicate of the
specification (section 8, invariant 3). -/
def noMergeableAdjacent (l : List TokenSpan) : Prop :=
  List.Chain' (fun a b =>
    ¬(a.range.stop.column = b.range.start.column ∧ a.style_id = b.style_id)) l

theorem pushOrMergeSpanList_head {b : TokenSpan} {rest : List TokenSpan}
    (s : TokenSpan) :
    ∃ b' t, pushOrMergeSpanList (b :: rest) s = b' :: t ∧
      b'.range.start.column = b.range.start.column ∧ b'.style_id = b.style_id := by
  cases rest with
  | nil =>
    simp only [pushOrMergeSpanList]
    split
    · exact ⟨_, _, rfl, rfl, rfl⟩
    · exact ⟨_, _, rfl, rfl, rfl⟩
  | cons c rest' =>
    simp only [pushOrMergeSpanList]
    exact ⟨_, _, rfl, rfl, rfl⟩

theorem pushOrMergeSpanList_closure {l : List TokenSpan} (s : TokenSpan)
    (h : noMergeableAdjacent l) : noMergeableAdjacent (pushOrMergeSpanList l s) := by
  induction l with
  | nil => simp [pushOrMergeSpanList, noMergeableAdjacent]
  | cons a rest ih =>
    cases rest with
    | nil =>
      simp only [pushOrMergeSpanList]
      split
      · simp [noMergeableAdjacent]
      · rename_i hcond
        simp only [noMergeableAdjacent, List.chain'_cons, List.chain'_singleton, and_true]
        exact hcond
    | cons b rest' =>
      simp only [pushOrMergeSpanList]
      have htail : noMergeableAdjacent (b :: rest') :=
        (List.chain'_cons.1 h).2
      have hrel : ¬(a.range.stop.column = b.range.start.column ∧ a.style_id = b.style_id) :=
        (List.chain'_cons.1 h).1
      have hpush := ih htail
      obtain ⟨b', t, heq, hcol, hstyle⟩ := @pushOrMergeSpanList_head b rest' s
      rw [heq] at hpush ⊢
      unfold noMergeableAdjacent at hpush ⊢
      rw [List.chain'_cons]
      exact ⟨by rw [hcol, hstyle]; exact hrel, hpush⟩

theorem pushOrMergeSpanList_merges {l : List TokenSpan} {last s : TokenSpan}
    (hcond : last.range.stop.column = s.range.start.column ∧ last.style_id = s.style_id) :
    pushOrMergeSpanList (l ++ [last]) s =
      l ++ [{ range :=
                { start := last.range.start,
                  stop := { line := last.range.stop.line,
                            column := s.range.stop.column,
                            index := s.range.stop.index } },
              style_id := last.style_id,
              state := last.state,
              goto_state := last.goto_state,
              matched_text := last.matched_text,
              inline_style := last.inline_style }] := by
  induction l with
  | nil =>
    simp only [List.nil_append, pushOrMergeSpanList, if_pos hcond]
  | cons a rest ih =>
    cases hr : rest ++ [last] with
    | nil => exact absurd hr (by simp)
    | cons b t =>
      simp only [List.cons_append]
      rw [hr]
      simp only [pushOrMergeSpanList]
      rw [← hr, ih]

/-- Shape of a match result: either unmatched, or its `start`/`length` come
from a non-zero-width region reported by the rule's matcher. -/
theorem matchAtPositionF_shape (cfg : HighlightConfig) (lookup : Int → List Char)
    (fuel : Nat) (rule : StateRule) (text : List Char) (pos : Nat) :
    (matchAtPositionF cfg lookup fuel rule text pos).matched = false ∨
    ∃ region, rule.matcher text pos = some region ∧ ¬(region.stop ≤ region.start) ∧
      (matchAtPositionF cfg lookup fuel rule text pos).start = region.start ∧
      (matchAtPositionF cfg lookup fuel rule text pos).length = region.stop - region.start := by
  match fuel with
  | 0 => exact Or.inl rfl
  | fuel + 1 =>
    simp only [matchAtPositionF]
    cases hm : rule.matcher text pos with
    | none => exact Or.inl rfl
    | some region =>
      dsimp only
      split
      · exact Or.inl rfl
      · refine Or.inr ⟨region, rfl, by assumption, ?_⟩
        cases hfind : findMatchedRuleAux region region.start region.stop rule.token_rules 0 with
        | none => exact ⟨rfl, rfl⟩
        | some p =>
          obtain ⟨idx, tr⟩ := p
          dsimp only
          cases hsub : tr.sub_state_rule with
          | none => exact ⟨rfl, rfl⟩
          | some sub => exact ⟨rfl, rfl⟩

/-- Progress bounds for a successful match, given the regex-adapter
contract: the match starts at or after the cursor, is at least one
character long, and ends within the text. -/
theorem matchAtPosition_bounds {cfg : HighlightConfig} {lookup : Int → List Char}
    {rule : StateRule} {text : List Char} {pos : Nat}
    (hwf : matcherWF rule.matcher)
    (h : (rule.matchAtPosition cfg lookup text pos).matched = true) :
    pos ≤ (rule.matchAtPosition cfg lookup text pos).start ∧
    1 ≤ (rule.matchAtPosition cfg lookup text pos).length ∧
    (rule.matchAtPosition cfg lookup text pos).start +
      (rule.matchAtPosition cfg lookup text pos).length ≤ text.length := by
  rcases matchAtPositionF_shape cfg lookup rule.size rule text pos with hfalse | hsh
  · rw [StateRule.matchAtPosition] at h
    rw [h] at hfalse
    cases hfalse
  · obtain ⟨region, hm, hw, hstart, hlen⟩ := hsh
    obtain ⟨h1, h2⟩ := hwf text pos region hm
    rw [StateRule.matchAtPosition] at h ⊢
    rw [hstart, hlen]
    omega

/-- The matcher of a state rule taken from a well-formed grammar satisfies
the adapter contract. -/
theorem matcherWF_of_wf {g : SyntaxRule} (hg : SyntaxRuleWF g) {s : Int}
    (hs : g.containsRule s = true) : matcherWF (g.getStateRule s).matcher :=
  ((StateRuleWF_def _).1 (getStateRule_wf hg hs)).1

/-- Progress bounds for a successful state-level match. -/
theorem matchAtPositionState_bounds {g : SyntaxRule} {cfg : HighlightConfig}
    {text : List Char} {pos : Nat} {state : Int} (hg : SyntaxRuleWF g)
    (h : (g.matchAtPositionState cfg text pos state).matched = true) :
    pos ≤ (g.matchAtPositionState cfg text pos state).start ∧
    1 ≤ (g.matchAtPositionState cfg text pos state).length ∧
    (g.matchAtPositionState cfg text pos state).start +
      (g.matchAtPositionState cfg text pos state).length ≤ text.length := by
  unfold SyntaxRule.matchAtPositionState at h ⊢
  split at h
  · rename_i hc
    rw [if_pos hc]
    exact matchAtPosition_bounds (matcherWF_of_wf hg hc) h
  · cases h

/-- Fuel irrelevance for the scan loop of `analyzeLine`: any fuel at least
the number of remaining characters produces the same result — i.e. the
loop terminates within `char_count` iterations, every iteration advancing
the cursor by at least one character. -/
theorem analyzeLineLoop_congr {g : SyntaxRule} (cfg : HighlightConfig)
    (text : List Char) (info : TextLineInfo) (hg : SyntaxRuleWF g) :
    ∀ f1 f2 pos state hl, text.length - pos ≤ f1 → text.length - pos ≤ f2 →
      analyzeLineLoop g cfg text info f1 pos state hl =
      analyzeLineLoop g cfg text info f2 pos state hl := by
  intro f1
  induction f1 with
  | zero =>
    intro f2 pos state hl h1 h2
    have hpos : ¬(pos < text.length) := by omega
    match f2 with
    | 0 => rfl
    | f2 + 1 =>
      simp only [analyzeLineLoop, if_neg hpos]
  | succ f1 ih =>
    intro f2 pos state hl h1 h2
    by_cases hpos : pos < text.length
    · match f2 with
      | 0 => omega
      | f2 + 1 =>
        simp only [analyzeLineLoop, if_pos hpos]
        cases hmr : (g.matchAtPositionState cfg text pos state).matched with
        | false =>
          simp only [hmr, Bool.false_eq_true, if_false]
          exact ih f2 (pos + 1) state hl (by omega) (by omega)
        | true =>
          simp only [hmr, if_true]
          have hb := matchAtPositionState_bounds hg hmr
          exact ih f2 _ _ _ (by omega) (by omega)
    · match f2 with
      | 0 => simp only [analyzeLineLoop, if_neg hpos]
      | f2 + 1 => simp only [analyzeLineLoop, if_neg hpos]

/-- A one-state example grammar: style 7 on any `a` or `b` character. -/
def gAB : SyntaxRule :=
  { states := [(0, mkSimpleRule (charSetMatcher ['a', 'b']) 7 (-1) (-1))] }

theorem gAB_wf : SyntaxRuleWF gAB := by
  intro p hp
  rcases List.mem_singleton.1 hp with rfl
  exact mkSimpleRule_wf _ _ _ _ (charSetMatcher_wf _)

theorem containsRule_false_getStateRule {g : SyntaxRule} {s : Int}
    (hs : g.containsRule s = false) : g.getStateRule s = StateRule.inert := by
  unfold SyntaxRule.containsRule at hs
  unfold SyntaxRule.getStateRule
  cases hfind : g.states.find? (fun p => p.1 = s) with
  | none => rfl
  | some p => rw [hfind] at hs; simp at hs

theorem matchAtPositionState_unknown {g : SyntaxRule} {cfg : HighlightConfig}
    {text : List Char} {pos : Nat} {s : Int} (hs : g.containsRule s = false) :
    g.matchAtPositionState cfg text pos s = {} := by
  unfold SyntaxRule.matchAtPositionState
  rw [hs]
  simp

/-- C8: the scan loop of `analyzeLine` terminates within `char_count(text)`
iterations — running it with any larger fuel gives the same result — since
every iteration advances the cursor: by one character on no match, and past
the match otherwise, a successful match being at least one character long
because a region with `end ≤ start` is treated as no match. -/
theorem claim_C8_termination (g : SyntaxRule) (cfg : HighlightConfig)
    (text : List Char) (info : TextLineInfo) (hg : SyntaxRuleWF g) :
    (∀ extra state hl,
      analyzeLineLoop g cfg text info (text.length + extra) 0 state hl =
      analyzeLineLoop g cfg text info text.length 0 state hl) ∧
    (∀ pos state, pos < text.length →
      (g.matchAtPositionState cfg text pos state).matched = true →
      pos < (g.matchAtPositionState cfg text pos state).start +
        (g.matchAtPositionState cfg text pos state).length) ∧
    (∀ (lookup : Int → List Char) (rule : StateRule) (pos : Nat) (region : SearchResult),
      rule.matcher text pos = some region → region.stop ≤ region.start →
      (rule.matchAtPosition cfg lookup text pos).matched = false) := by
  refine ⟨?_, ?_, ?_⟩
  · intro extra state hl
    exact analyzeLineLoop_congr cfg text info hg _ _ 0 state hl (by omega) (by omega)
  · intro pos state hpos hm
    have := matchAtPositionState_bounds hg hm
    omega
  · intro lookup rule pos region hm hzw
    rw [matchAtPosition_eq, hm]
    dsimp only
    rw [if_pos hzw]

/-- Witness for C8 at a concrete grammar and line. -/
theorem claim_C8_witness :
    analyzeLineLoop gAB {} ['a'] { line := 0, start_state := 0, start_char_offset := 0 }
        (['a'].length + 5) 0 0 {} =
      analyzeLineLoop gAB {} ['a'] { line := 0, start_state := 0, start_char_offset := 0 }
        ['a'].length 0 0 {} :=
  (claim_C8_termination gAB {} ['a'] _ gAB_wf).1 5 0 {}

/-- C9: a lexer state missing from the grammar is recovered locally — the
scan loop advances one character and continues in the same state, so a full
line tokenized in an unknown state yields no spans and returns the state
unchanged; in particular the end-of-line state-rule lookup after the loop
also completes (the unknown state resolves to the inert rule, whose
line-end sentinel −1 leaves the state as is), and no error is surfaced. -/
theorem claim_C9_unknown_state (g : SyntaxRule) (cfg : HighlightConfig)
    (s : Int) (hs : g.containsRule s = false) :
    (∀ text info fuel pos hl, pos < text.length →
      analyzeLineLoop g cfg text info (fuel + 1) pos s hl =
      analyzeLineLoop g cfg text info fuel (pos + 1) s hl) ∧
    (∀ text line off,
      analyzeLine g cfg text { line := line, start_state := s, start_char_offset := off } =
        { highlight := {}, end_state := s, char_count := text.length }) := by
  constructor
  · intro text info fuel pos hl hpos
    simp only [analyzeLineLoop, if_pos hpos, matchAtPositionState_unknown hs]
    rfl
  · intro text line off
    have hloop : ∀ fuel pos hl, analyzeLineLoop g cfg text
        { line := line, start_state := s, start_char_offset := off } fuel pos s hl = (hl, s) := by
      intro fuel
      induction fuel with
      | zero => intro pos hl; rfl
      | succ fuel ih =>
        intro pos hl
        by_cases hpos : pos < text.length
        · simp only [analyzeLineLoop, if_pos hpos, matchAtPositionState_unknown hs]
          exact ih (pos + 1) hl
        · simp only [analyzeLineLoop, if_neg hpos]
    unfold analyzeLine
    by_cases hemp : text.isEmpty
    · rw [if_pos hemp]
      have : text.length = 0 := by
        cases text
        · rfl
        · simp [List.isEmpty] at hemp
      rw [this]
    · rw [if_neg hemp]
      rw [hloop]
      dsimp only
      rw [containsRule_false_getStateRule hs]
      rfl

/-- Witness for C9: state 5 is not in the example grammar. -/
theorem claim_C9_witness :
    analyzeLine gAB {} ['a'] { line := 0, start_state := 5, start_char_offset := 0 } =
      { highlight := {}, end_state := 5, char_count := 1 } :=
  (claim_C9_unknown_state gAB {} 5 (by decide)).2 ['a'] 0 0

theorem subIterationSpans_goto {cfg : HighlightConfig} {lookup : Int → List Char}
    {parentStyle : Int} {sub_pos : Nat} {sub_res : MatchResult}
    (hres : ∀ sp ∈ sub_res.sub_spans, sp.goto_state = -1) :
    ∀ sp ∈ subIterationSpans cfg lookup parentStyle sub_pos sub_res, sp.goto_state = -1 := by
  intro sp hsp
  unfold subIterationSpans at hsp
  rcases List.mem_append.1 hsp with hgap | hbody
  · split at hgap
    · rcases List.mem_singleton.1 hgap with rfl
      rfl
    · cases hgap
  · split at hbody
    · obtain ⟨sub, hmem, rfl⟩ := List.mem_map.1 hbody
      exact hres sub hmem
    · split at hbody
      · obtain ⟨gm, hmem, rfl⟩ := List.mem_map.1 hbody
        rfl
      · rcases List.mem_singleton.1 hbody with rfl
        rfl

theorem subSpansLoopG_goto {cfg : HighlightConfig} {lookup : Int → List Char}
    {matchSub : List Char → Nat → MatchResult} {parentStyle : Int}
    {matched_text : List Char} {sub_len : Nat}
    (h : ∀ t p, ∀ sp ∈ (matchSub t p).sub_spans, sp.goto_state = -1) :
    ∀ sub_pos fuel,
      ∀ sp ∈ subSpansLoopG cfg lookup matchSub parentStyle matched_text sub_len sub_pos fuel,
        sp.goto_state = -1 := by
  intro sub_pos fuel
  induction fuel generalizing sub_pos with
  | zero => intro sp hsp; cases hsp
  | succ fuel ih =>
    intro sp hsp
    simp only [subSpansLoopG] at hsp
    split at hsp
    · split at hsp
      · rcases List.mem_append.1 hsp with h1 | h2
        · exact subIterationSpans_goto (h matched_text sub_pos) sp h1
        · exact ih _ sp h2
      · rcases List.mem_singleton.1 hsp with rfl
        rfl
    · cases hsp

theorem matchAtPositionF_sub_goto (cfg : HighlightConfig) (lookup : Int → List Char) :
    ∀ fuel rule text pos,
      ∀ sp ∈ (matchAtPositionF cfg lookup fuel rule text pos).sub_spans,
        sp.goto_state = -1 := by
  intro fuel
  induction fuel with
  | zero => intro rule text pos sp hsp; cases hsp
  | succ fuel ih =>
    intro rule text pos sp hsp
    simp only [matchAtPositionF] at hsp
    revert hsp
    cases hm : rule.matcher text pos with
    | none => intro hsp; cases hsp
    | some region =>
      dsimp only
      split
      · intro hsp; cases hsp
      · cases hfind : findMatchedRuleAux region region.start region.stop rule.token_rules 0 with
        | none => intro hsp; cases hsp
        | some p =>
          obtain ⟨idx, tr⟩ := p
          dsimp only
          cases hsub : tr.sub_state_rule with
          | none => intro hsp; cases hsp
          | some sub =>
            dsimp only
            intro hsp
            exact subSpansLoopG_goto (fun t p => ih sub t p) _ _ sp hsp

/-- C10: spans emitted through the sub-grammar path keep the sentinel
`goto_state = −1` — the winning rule's transition is never copied into
sub-grammar-derived spans — while spans emitted through the whole-match or
capture-group paths carry the rule's `goto_state`; the tokenizer
nevertheless applies the match's `goto_state` to the lexer state after the
match, whichever path emitted the spans. -/
theorem claim_C10_sub_goto_sentinel :
    (∀ (cfg : HighlightConfig) (lookup : Int → List Char) (rule : StateRule)
        (text : List Char) (pos : Nat),
      ∀ sp ∈ (rule.matchAtPosition cfg lookup text pos).sub_spans, sp.goto_state = -1) ∧
    (∀ (g : SyntaxRule) (cfg : HighlightConfig) (info : TextLineInfo) (st : Int)
        (mr : MatchResult), mr.sub_spans ≠ [] →
      (∀ sp ∈ mr.sub_spans, sp.goto_state = -1) →
      ∀ sp ∈ emittedSpans g cfg info st mr, sp.goto_state = -1) ∧
    (∀ (g : SyntaxRule) (cfg : HighlightConfig) (info : TextLineInfo) (st : Int)
        (mr : MatchResult), mr.sub_spans = [] →
      ∀ sp ∈ emittedSpans g cfg info st mr, sp.goto_state = mr.goto_state) ∧
    (∀ (g : SyntaxRule) (cfg : HighlightConfig) (text : List Char) (info : TextLineInfo)
        (fuel pos : Nat) (state : Int) (hl : LineHighlight), pos < text.length →
      (g.matchAtPositionState cfg text pos state).matched = true →
      analyzeLineLoop g cfg text info (fuel + 1) pos state hl =
        analyzeLineLoop g cfg text info fuel
          ((g.matchAtPositionState cfg text pos state).start +
            (g.matchAtPositionState cfg text pos state).length)
          (if 0 ≤ (g.matchAtPositionState cfg text pos state).goto_state then
            (g.matchAtPositionState cfg text pos state).goto_state else state)
          (addLineHighlightResult g cfg hl info state
            (g.matchAtPositionState cfg text pos state))) := by
  refine ⟨?_, ?_, ?_, ?_⟩
  · intro cfg lookup rule text pos sp hsp
    exact matchAtPositionF_sub_goto cfg lookup rule.size rule text pos sp hsp
  · intro g cfg info st mr hne hall sp hsp
    unfold emittedSpans at hsp
    rw [if_pos hne] at hsp
    obtain ⟨sub, hmem, rfl⟩ := List.mem_map.1 hsp
    exact hall sub hmem
  · intro g cfg info st mr hemp sp hsp
    unfold emittedSpans at hsp
    rw [if_neg (by simp [hemp])] at hsp
    split at hsp
    · rcases List.mem_singleton.1 hsp with rfl
      rfl
    · obtain ⟨gm, hmem, rfl⟩ := List.mem_map.1 hsp
      rfl
  · intro g cfg text info fuel pos state hl hpos hm
    simp only [analyzeLineLoop, if_pos hpos, hm, if_true]

/-- Witness for C10 at the example grammar: spans of an `a`-match at
position 0 of `"a"`; the match carries no sub-spans, so its emitted span
carries the rule's `goto_state`. -/
theorem claim_C10_witness :
    (∀ sp ∈ (gAB.matchAtPositionState {} ['a'] 0 0).sub_spans, sp.goto_state = -1) ∧
    (∀ sp ∈ emittedSpans gAB {} { line := 0, start_state := 0, start_char_offset := 0 } 0
        (gAB.matchAtPositionState {} ['a'] 0 0), sp.goto_state =
          (gAB.matchAtPositionState {} ['a'] 0 0).goto_state) := by
  constructor
  · intro sp hsp
    exact claim_C10_sub_goto_sentinel.1 {} gAB.getInlineStyle (gAB.getStateRule 0) ['a'] 0 sp
      (by revert hsp; rw [show gAB.matchAtPositionState {} ['a'] 0 0 =
        (gAB.getStateRule 0).matchAtPosition {} gAB.getInlineStyle ['a'] 0 from by decide]
          ; exact fun h => h)
  · intro sp hsp
    exact claim_C10_sub_goto_sentinel.2.2.1 gAB {} _ 0 _ (by decide) sp hsp

theorem splitFirstNL_not_mem {t seg after : List Char}
    (h : splitFirstNL t = some (seg, after)) : '\n' ∉ seg := by
  induction t generalizing seg with
  | nil => simp [splitFirstNL] at h
  | cons c rest ih =>
    simp only [splitFirstNL] at h
    split at h
    · cases h; simp
    · rename_i hc
      revert h
      cases hr : splitFirstNL rest with
      | none => intro h; cases h
      | some p =>
        obtain ⟨seg1, after1⟩ := p
        intro h
        cases h
        simp only [List.mem_cons, not_or]
        exact ⟨fun he => hc he.symm, ih hr⟩

theorem splitFirstNL_none {t : List Char} (h : splitFirstNL t = none) : '\n' ∉ t := by
  induction t with
  | nil => simp
  | cons c rest ih =>
    simp only [splitFirstNL] at h
    split at h
    · cases h
    · rename_i hc
      revert h
      cases hr : splitFirstNL rest with
      | none =>
        intro _
        simp only [List.mem_cons, not_or]
        exact ⟨fun he => hc he.symm, ih hr⟩
      | some p => obtain ⟨a, b⟩ := p; intro h; cases h

theorem splitFirstNL_append {s r : List Char} (hs : '\n' ∉ s) :
    splitFirstNL (s ++ '\n' :: r) = some (s, r) := by
  induction s with
  | nil => simp [splitFirstNL]
  | cons c rest ih =>
    have hc : ¬(c = '\n') := fun he => hs (by simp [he])
    have hrest : '\n' ∉ rest := fun hm => hs (by simp [hm])
    simp only [List.cons_append, splitFirstNL, if_neg hc]
    rw [show rest.append ('\n' :: r) = rest ++ '\n' :: r from rfl]
    rw [ih hrest]

theorem analyzeLine_char_count (g : SyntaxRule) (cfg : HighlightConfig)
    (text : List Char) (info : TextLineInfo) :
    (analyzeLine g cfg text info).char_count = text.length := by
  unfold analyzeLine
  by_cases h : text.isEmpty
  · rw [if_pos h]
    cases text
    · rfl
    · simp [List.isEmpty] at h
  · rw [if_neg h]

theorem analyzeTextLoopF_length (g : SyntaxRule) (cfg : HighlightConfig) :
    ∀ fuel (text : List Char) line state offset, text.length < fuel →
      (analyzeTextLoopF g cfg fuel text line state offset).length =
        text.count '\n' + 1 := by
  intro fuel
  induction fuel with
  | zero => intro text line state offset h; omega
  | succ fuel ih =>
    intro text line state offset h
    simp only [analyzeTextLoopF]
    cases hs : splitFirstNL text with
    | none =>
      have hnm := splitFirstNL_none hs
      dsimp only
      simp [List.count_eq_zero_of_not_mem hnm]
    | some p =>
      obtain ⟨seg, rest⟩ := p
      have heq := splitFirstNL_eq hs
      have hnm := splitFirstNL_not_mem hs
      have hlen := splitFirstNL_length hs
      dsimp only
      rw [List.length_cons, ih rest _ _ _ (by omega)]
      subst heq
      simp only [List.count_append, List.count_cons]
      rw [List.count_eq_zero_of_not_mem hnm]
      simp

theorem analyzeTextLoop_length (g : SyntaxRule) (cfg : HighlightConfig)
    (text : List Char) (line : Nat) (state : Int) (offset : Nat) :
    (analyzeTextLoop g cfg text line state offset).length = text.count '\n' + 1 :=
  analyzeTextLoopF_length g cfg (text.length + 1) text line state offset (by omega)

/-- C2 (amended): `analyzeText` of the empty string returns an empty
`DocumentHighlight` — zero `LineHighlight`s, not one — because of the early
return on empty input; for every nonempty text the number of
`LineHighlight`s equals the line count, i.e. the number of `'\n'`
characters plus one. -/
theorem claim_C2_line_count (g : SyntaxRule) (cfg : HighlightConfig) :
    (analyzeText g cfg []).lines.length = 0 ∧
    ∀ text : List Char, text ≠ [] →
      (analyzeText g cfg text).lines.length = text.count '\n' + 1 := by
  constructor
  · rfl
  · intro text hne
    unfold analyzeText
    rw [if_neg (by simp [hne])]
    exact analyzeTextLoop_length g cfg text 0 SyntaxRule.kDefaultStateId 0

/-- Counterexample to C2 as stated: on the empty string the analyzer
returns zero lines, not one. -/
theorem claim_C2_counterexample :
    ¬((analyzeText gAB {} []).lines.length = 1 ∧
      ((analyzeText gAB {} []).lines.getD 0 {}).spans.length = 0) := by
  decide

/-- Witness for C2 (amended) at a nonempty input. -/
theorem claim_C2_witness :
    (analyzeText gAB {} ['a', '\n']).lines.length = ['a', '\n'].count '\n' + 1 :=
  (claim_C2_line_count gAB {}).2 ['a', '\n'] (by decide)

/-- C6: the final line after the last newline is always tokenized and
produces a `LineHighlight` even when empty, so any text containing `'\n'`
yields `count('\n') + 1` lines and `"a\n"` yields exactly two (one span,
then zero spans); and a line with a `'\r'` before the `'\n'` is tokenized
with the `'\r'` stripped, while the next line's start offset advances by
`char_count + 1 + 1`. -/
theorem claim_C6_trailing_line_and_cr (g : SyntaxRule) (cfg : HighlightConfig) :
    (∀ text : List Char, '\n' ∈ text →
      (analyzeText g cfg text).lines.length = text.count '\n' + 1) ∧
    (∀ (seg rest : List Char) (line : Nat) (state : Int) (offset : Nat), '\n' ∉ seg →
      analyzeTextLoop g cfg (seg ++ '\r' :: '\n' :: rest) line state offset =
        (analyzeLine g cfg seg
            { line := line, start_state := state, start_char_offset := offset }).highlight ::
          analyzeTextLoop g cfg rest (line + 1)
            (analyzeLine g cfg seg
              { line := line, start_state := state, start_char_offset := offset }).end_state
            (offset + seg.length + 1 + 1)) ∧
    ((analyzeText gAB {} ['a', '\n']).lines.map fun h => h.spans.length) = [1, 0] ∧
    ((analyzeText gAB {} ['a', '\r', '\n', 'b']).lines.map fun h => h.spans.length) = [1, 1] ∧
    (((analyzeText gAB {} ['a', '\r', '\n', 'b']).lines.getD 1 {}).spans.getD 0 {}).range.start.index = 3 := by
  refine ⟨?_, ?_, by decide, by decide, by decide⟩
  · intro text hmem
    have hne : text ≠ [] := by
      intro he
      rw [he] at hmem
      cases hmem
    exact (claim_C2_line_count g cfg).2 text hne
  · intro seg rest line state offset hnm
    have hsplit : splitFirstNL (seg ++ '\r' :: '\n' :: rest) = some (seg ++ ['\r'], rest) := by
      have h2 : '\n' ∉ seg ++ ['\r'] := by
        simp only [List.mem_append, List.mem_singleton, not_or]
        exact ⟨hnm, by decide⟩
      have := @splitFirstNL_append (seg ++ ['\r']) rest h2
      simpa using this
    rw [analyzeTextLoop_eq, hsplit]
    have hlast : (seg ++ ['\r']).getLast? = some '\r' := by simp
    have hdrop : (seg ++ ['\r']).dropLast = seg := by simp
    dsimp only
    rw [hlast, hdrop]
    simp only [beq_self_eq_true, if_true]
    rw [analyzeLine_char_count]

/-- Witness for C6's universally quantified parts. -/
theorem claim_C6_witness :
    (analyzeText gAB {} ['b', '\n']).lines.length = ['b', '\n'].count '\n' + 1 ∧
    analyzeTextLoop gAB {} (['a'] ++ '\r' :: '\n' :: ['b']) 0 0 0 =
      (analyzeLine gAB {} ['a']
          { line := 0, start_state := 0, start_char_offset := 0 }).highlight ::
        analyzeTextLoop gAB {} ['b'] 1
          (analyzeLine gAB {} ['a']
            { line := 0, start_state := 0, start_char_offset := 0 }).end_state
          (0 + ['a'].length + 1 + 1) :=
  ⟨(claim_C6_trailing_line_and_cr gAB {}).1 ['b', '\n'] (by decide),
   (claim_C6_trailing_line_and_cr gAB {}).2.1 ['a'] ['b'] 0 0 0 (by decide)⟩

theorem foldl_pushOrMergeSpan_closure (pushed : List TokenSpan) :
    ∀ hl : LineHighlight, noMergeableAdjacent hl.spans →
      noMergeableAdjacent ((pushed.foldl LineHighlight.pushOrMergeSpan hl).spans) := by
  induction pushed with
  | nil => intro hl h; exact h
  | cons s rest ih =>
    intro hl h
    exact ih (hl.pushOrMergeSpan s) (pushOrMergeSpanList_closure s h)

/-- C7: after any sequence of insertions through `pushOrMergeSpan` starting
from an empty line, no two adjacent spans have touching columns and equal
styles; and when an insertion meets the merge condition, the previous span
is extended in place — only its end column and end index change to the new
span's, while its start, `style_id`, `state`, `goto_state`, `matched_text`
and `inline_style` are all kept. -/
theorem claim_C7_merge_invariant :
    (∀ pushed : List TokenSpan,
      noMergeableAdjacent ((pushed.foldl LineHighlight.pushOrMergeSpan {}).spans)) ∧
    (∀ (l : List TokenSpan) (last s : TokenSpan),
      last.range.stop.column = s.range.start.column → last.style_id = s.style_id →
      pushOrMergeSpanList (l ++ [last]) s =
        l ++ [{ range :=
                  { start := last.range.start,
                    stop := { line := last.range.stop.line,
                              column := s.range.stop.column,
                              index := s.range.stop.index } },
                style_id := last.style_id,
                state := last.state,
                goto_state := last.goto_state,
                matched_text := last.matched_text,
                inline_style := last.inline_style }]) := by
  constructor
  · intro pushed
    exact foldl_pushOrMergeSpan_closure pushed {} (by simp [noMergeableAdjacent])
  · intro l last s h1 h2
    exact pushOrMergeSpanList_merges ⟨h1, h2⟩

def spanA : TokenSpan := { range := { start := ⟨0, 0, 0⟩, stop := ⟨0, 2, 2⟩ }, style_id := 7 }

def spanB : TokenSpan := { range := { start := ⟨0, 2, 2⟩, stop := ⟨0, 4, 4⟩ }, style_id := 7 }

/-- Witness for C7: two adjacent same-style spans merge into one. -/
theorem claim_C7_witness :
    noMergeableAdjacent (([spanA, spanB].foldl LineHighlight.pushOrMergeSpan {}).spans) ∧
    pushOrMergeSpanList [spanA] spanB =
      [{ range :=
           { start := spanA.range.start,
             stop := { line := spanA.range.stop.line,
                       column := spanB.range.stop.column,
                       index := spanB.range.stop.index } },
         style_id := spanA.style_id,
         state := spanA.state,
         goto_state := spanA.goto_state,
         matched_text := spanA.matched_text,
         inline_style := spanA.inline_style }] :=
  ⟨claim_C7_merge_invariant.1 [spanA, spanB],
   claim_C7_merge_invariant.2 [] spanA spanB (by decide) (by decide)⟩

/-- `tiles spans a b` holds when the spans' column ranges cover exactly
`[a, b)` contiguously and in order. -/
def tiles : List TokenSpan → Nat → Nat → Bool
  | [], a, b => a == b
  | s :: rest, a, b => s.range.start.column == a && tiles rest s.range.stop.column b

theorem tiles_append {l1 l2 : List TokenSpan} {a m b : Nat}
    (h1 : tiles l1 a m = true) (h2 : tiles l2 m b = true) :
    tiles (l1 ++ l2) a b = true := by
  induction l1 generalizing a with
  | nil =>
    simp only [tiles, beq_iff_eq] at h1
    subst h1
    simpa using h2
  | cons s rest ih =>
    simp only [tiles, Bool.and_eq_true] at h1 ⊢
    exact ⟨h1.1, ih h1.2⟩

theorem tiles_shift {l : List TokenSpan} {a b : Nat} (off : Nat)
    (h : tiles l a b = true) :
    tiles (l.map (shiftSpanColumns off)) (a + off) (b + off) = true := by
  induction l generalizing a with
  | nil =>
    simp only [tiles, beq_iff_eq] at h
    subst h
    simp [tiles]
  | cons s rest ih =>
    simp only [tiles, Bool.and_eq_true, beq_iff_eq] at h
    obtain ⟨h1, h2⟩ := h
    simp only [List.map_cons, tiles, Bool.and_eq_true, beq_iff_eq]
    constructor
    · simp [shiftSpanColumns, h1]
    · have := ih h2
      simpa [shiftSpanColumns] using this

/-- A grammar fragment whose token rules declare no capture groups, down
through all sub-grammars. -/
def noCapturesRule : StateRule → Prop
  | r => ∀ tr, tr ∈ r.token_rules →
      tr.group_count = 0 ∧ ∀ sub, tr.sub_state_rule = some sub → noCapturesRule sub
termination_by r => r.size
decreasing_by
  exact StateRule.size_of_mem_sub (by assumption) (by assumption)

theorem noCapturesRule_def (r : StateRule) :
    noCapturesRule r ↔ ∀ tr, tr ∈ r.token_rules →
      tr.group_count = 0 ∧ ∀ sub, tr.sub_state_rule = some sub → noCapturesRule sub := by
  rw [noCapturesRule]

theorem collectCaptureGroups_empty {tr : TokenRule} (h : tr.group_count = 0)
    (region : SearchResult) (ms me : Nat) :
    collectCaptureGroups tr region ms me = [] := by
  unfold collectCaptureGroups
  rw [h]
  rfl

theorem subIterationSpans_tiles {cfg : HighlightConfig} {lookup : Int → List Char}
    {parentStyle : Int} {sub_pos : Nat} {sub_res : MatchResult}
    (hle : sub_pos ≤ sub_res.start) (hlen : 1 ≤ sub_res.length)
    (hcap : sub_res.capture_groups = [])
    (hsub : sub_res.sub_spans = [] ∨ tiles sub_res.sub_spans 0 sub_res.length = true) :
    tiles (subIterationSpans cfg lookup parentStyle sub_pos sub_res) sub_pos
      (sub_res.start + sub_res.length) = true := by
  unfold subIterationSpans
  have hcontent : tiles
      (if sub_res.sub_spans ≠ [] then
        sub_res.sub_spans.map (shiftSpanColumns sub_res.start)
      else if sub_res.capture_groups ≠ [] then
        sub_res.capture_groups.map fun g =>
          { range := { start := { line := 0, column := g.start + sub_res.start, index := 0 },
                       stop := { line := 0, column := g.start + g.length + sub_res.start, index := 0 } },
            style_id := g.style,
            inline_style := if cfg.inline_style then some (lookup g.style) else none }
      else
        [{ range := { start := { line := 0, column := sub_res.start, index := 0 },
                      stop := { line := 0, column := sub_res.start + sub_res.length, index := 0 } },
           style_id := sub_res.style,
           inline_style := if cfg.inline_style then some (lookup sub_res.style) else none }])
      sub_res.start (sub_res.start + sub_res.length) = true := by
    rcases hsub with hemp | htl
    · rw [if_neg (by simp [hemp]), if_neg (by simp [hcap])]
      simp [tiles]
    · by_cases hne : sub_res.sub_spans = []
      · rw [if_neg (by simp [hne]), if_neg (by simp [hcap])]
        simp [tiles]
      · rw [if_pos hne]
        have := tiles_shift sub_res.start htl
        simpa [Nat.add_comm] using this
  by_cases hgap : sub_pos < sub_res.start
  · rw [if_pos hgap]
    refine tiles_append ?_ hcontent
    simp [tiles, mkSubGapSpan]
  · rw [if_neg hgap]
    have : sub_pos = sub_res.start := by omega
    subst this
    simpa using hcontent

theorem subSpansLoopG_tiles {cfg : HighlightConfig} {lookup : Int → List Char}
    {matchSub : List Char → Nat → MatchResult} {parentStyle : Int}
    {mtext : List Char}
    (H : ∀ p, (matchSub mtext p).matched = true →
      p ≤ (matchSub mtext p).start ∧ 1 ≤ (matchSub mtext p).length ∧
      (matchSub mtext p).start + (matchSub mtext p).length ≤ mtext.length ∧
      (matchSub mtext p).capture_groups = [] ∧
      ((matchSub mtext p).sub_spans = [] ∨
        tiles (matchSub mtext p).sub_spans 0 (matchSub mtext p).length = true)) :
    ∀ fuel sub_pos, sub_pos ≤ mtext.length → mtext.length - sub_pos ≤ fuel →
      tiles (subSpansLoopG cfg lookup matchSub parentStyle mtext mtext.length sub_pos fuel)
        sub_pos mtext.length = true := by
  intro fuel
  induction fuel with
  | zero =>
    intro sub_pos h1 h2
    have : sub_pos = mtext.length := by omega
    subst this
    simp [subSpansLoopG, tiles]
  | succ fuel ih =>
    intro sub_pos h1 h2
    simp only [subSpansLoopG]
    by_cases hpos : sub_pos < mtext.length
    · rw [if_pos hpos]
      by_cases hm : (matchSub mtext sub_pos).matched = true
      · rw [if_pos hm]
        obtain ⟨hb1, hb2, hb3, hb4, hb5⟩ := H sub_pos hm
        have hnext : subNextPos sub_pos (matchSub mtext sub_pos) =
            (matchSub mtext sub_pos).start + (matchSub mtext sub_pos).length := by
          unfold subNextPos
          rw [if_neg (by omega)]
        rw [hnext]
        refine tiles_append (subIterationSpans_tiles hb1 hb2 hb4 hb5) ?_
        exact ih _ (by omega) (by omega)
      · rw [if_neg hm]
        simp [tiles, mkSubGapSpan]
    · rw [if_neg hpos]
      have : sub_pos = mtext.length := by omega
      subst this
      simp [tiles]

theorem matchAtPositionF_bounds {cfg : HighlightConfig} {lookup : Int → List Char}
    {fuel : Nat} {rule : StateRule} {text : List Char} {pos : Nat}
    (hwf : matcherWF rule.matcher)
    (h : (matchAtPositionF cfg lookup fuel rule text pos).matched = true) :
    pos ≤ (matchAtPositionF cfg lookup fuel rule text pos).start ∧
    1 ≤ (matchAtPositionF cfg lookup fuel rule text pos).length ∧
    (matchAtPositionF cfg lookup fuel rule text pos).start +
      (matchAtPositionF cfg lookup fuel rule text pos).length ≤ text.length := by
  rcases matchAtPositionF_shape cfg lookup fuel rule text pos with hfalse | hsh
  · rw [h] at hfalse
    cases hfalse
  · obtain ⟨region, hm, hw, hstart, hlen⟩ := hsh
    obtain ⟨h1, h2⟩ := hwf text pos region hm
    rw [hstart, hlen]
    omega

theorem matchAtPositionF_tiles (cfg : HighlightConfig) (lookup : Int → List Char) :
    ∀ fuel (rule : StateRule) (text : List Char) (pos : Nat),
      StateRuleWF rule → noCapturesRule rule →
      (matchAtPositionF cfg lookup fuel rule text pos).matched = true →
      (matchAtPositionF cfg lookup fuel rule text pos).capture_groups = [] ∧
      ((matchAtPositionF cfg lookup fuel rule text pos).sub_spans = [] ∨
        tiles (matchAtPositionF cfg lookup fuel rule text pos).sub_spans 0
          (matchAtPositionF cfg lookup fuel rule text pos).length = true) := by
  intro fuel
  induction fuel with
  | zero => intro rule text pos _ _ h; cases h
  | succ fuel ih =>
    intro rule text pos hwf hnc h
    have hwm : matcherWF rule.matcher := ((StateRuleWF_def rule).1 hwf).1
    revert h
    simp only [matchAtPositionF]
    cases hm : rule.matcher text pos with
    | none => intro h; cases h
    | some region =>
      dsimp only
      split
      · intro h; cases h
      · rename_i hzw
        obtain ⟨hr1, hr2⟩ := hwm text pos region hm
        cases hfind : findMatchedRuleAux region region.start region.stop rule.token_rules 0 with
        | none => intro _; exact ⟨rfl, Or.inl rfl⟩
        | some p =>
          obtain ⟨idx, tr⟩ := p
          dsimp only
          have hmem := findMatchedRuleAux_mem hfind
          have hgc : tr.group_count = 0 := (((noCapturesRule_def rule).1 hnc) tr hmem).1
          cases hsub : tr.sub_state_rule with
          | none =>
            intro _
            exact ⟨collectCaptureGroups_empty hgc region region.start region.stop, Or.inl rfl⟩
          | some sub =>
            intro _
            dsimp only
            refine ⟨collectCaptureGroups_empty hgc region region.start region.stop, Or.inr ?_⟩
            have hsubwf : StateRuleWF sub :=
              ((StateRuleWF_def rule).1 hwf).2 tr hmem sub hsub
            have hsubnc : noCapturesRule sub :=
              (((noCapturesRule_def rule).1 hnc) tr hmem).2 sub hsub
            have hsubwm : matcherWF sub.matcher := ((StateRuleWF_def sub).1 hsubwf).1
            have hmlen : ((text.drop region.start).take (region.stop - region.start)).length
                = region.stop - region.start := by
              simp only [List.length_take, List.length_drop]
              omega
            have htl := @subSpansLoopG_tiles cfg lookup
              (fun t p => matchAtPositionF cfg lookup fuel sub t p)
              (tr.getGroupStyleId 0)
              ((text.drop region.start).take (region.stop - region.start))
              (fun p hm2 => by
                obtain ⟨hb1, hb2, hb3⟩ := matchAtPositionF_bounds hsubwm hm2
                obtain ⟨hc, hs⟩ := ih sub _ p hsubwf hsubnc hm2
                exact ⟨hb1, hb2, hb3, hc, hs⟩)
              ((text.drop region.start).take (region.stop - region.start)).length 0
              (by omega) (by omega)
            convert htl using 2
            exact hmlen.symm

/-- C3 (amended): when the winning rule of a match carries a sub-grammar
none of whose rules declares capture groups, the collected sub-spans tile
the whole match region contiguously — gaps before, between and after
sub-matches are filled with the parent rule's default style — and emission
uses exactly the translated sub-spans, the match producing no span of its
own.  (With capture groups in the sub-grammar, a sub-match contributes only
its group extents and the tiling can have holes — see the counterexample.) -/
theorem claim_C3_sub_tiling (cfg : HighlightConfig) (lookup : Int → List Char)
    (rule : StateRule) (text : List Char) (pos : Nat)
    (hwf : StateRuleWF rule) (hnc : noCapturesRule rule)
    (hm : (rule.matchAtPosition cfg lookup text pos).matched = true) :
    ((rule.matchAtPosition cfg lookup text pos).sub_spans ≠ [] →
      tiles (rule.matchAtPosition cfg lookup text pos).sub_spans 0
        (rule.matchAtPosition cfg lookup text pos).length = true) ∧
    (∀ (g : SyntaxRule) (info : TextLineInfo) (st : Int),
      (rule.matchAtPosition cfg lookup text pos).sub_spans ≠ [] →
      emittedSpans g cfg info st (rule.matchAtPosition cfg lookup text pos) =
        (rule.matchAtPosition cfg lookup text pos).sub_spans.map fun sub =>
          { sub with
              range :=
                { start := { line := info.line,
                             column := sub.range.start.column +
                               (rule.matchAtPosition cfg lookup text pos).start,
                             index := info.start_char_offset +
                               (sub.range.start.column +
                                 (rule.matchAtPosition cfg lookup text pos).start) },
                  stop := { line := info.line,
                            column := sub.range.stop.column +
                              (rule.matchAtPosition cfg lookup text pos).start,
                            index := info.start_char_offset +
                              (sub.range.stop.column +
                                (rule.matchAtPosition cfg lookup text pos).start) } },
              state := st }) := by
  constructor
  · intro hne
    rcases (matchAtPositionF_tiles cfg lookup rule.size rule text pos hwf hnc hm).2 with
      hemp | htl
    · exact absurd hemp hne
    · exact htl
  · intro g info st hne
    unfold emittedSpans
    rw [if_pos hne]

/-- A matcher accepting the whole line when searched from position 0. -/
def matchAllLine : List Char → Nat → Option SearchResult :=
  fun text pos =>
    if pos = 0 ∧ text ≠ [] then
      some { start := 0, stop := text.length,
             groups := [some (0, text.length), some (0, text.length)] }
    else none

theorem matchAllLine_wf : matcherWF matchAllLine := by
  intro text pos res h
  unfold matchAllLine at h
  split at h
  · rename_i hc
    obtain ⟨hp, -⟩ := hc
    cases h
    subst hp
    dsimp only
    omega
  · cases h

/-- Sub-grammar of digits `1`, `2`, `3`, styled 6, no capture groups. -/
def digitSubRule : StateRule := mkSimpleRule (charSetMatcher ['1', '2', '3']) 6 (-1) (-1)

/-- An outer rule matching the whole line with default style 9 and
descending into `digitSubRule`. -/
def outerRuleC3 : StateRule :=
  .mk matchAllLine [.mk 1 0 [9] (-1) (some digitSubRule)] (-1)

theorem outerRuleC3_wf : StateRuleWF outerRuleC3 := by
  rw [StateRuleWF_def]
  refine ⟨matchAllLine_wf, ?_⟩
  intro tr htr sub hsub
  rcases List.mem_singleton.1 htr with rfl
  simp only [TokenRule.sub_state_rule] at hsub
  cases hsub
  exact mkSimpleRule_wf _ _ _ _ (charSetMatcher_wf _)

theorem mkSimpleRule_noCaptures (m : List Char → Nat → Option SearchResult)
    (style goto_st line_end : Int) :
    noCapturesRule (mkSimpleRule m style goto_st line_end) := by
  rw [noCapturesRule_def]
  intro tr htr
  rcases List.mem_singleton.1 htr with rfl
  refine ⟨rfl, ?_⟩
  intro sub hsub
  simp [TokenRule.sub_state_rule] at hsub

theorem outerRuleC3_noCaptures : noCapturesRule outerRuleC3 := by
  rw [noCapturesRule_def]
  intro tr htr
  rcases List.mem_singleton.1 htr with rfl
  refine ⟨rfl, ?_⟩
  intro sub hsub
  simp only [TokenRule.sub_state_rule] at hsub
  cases hsub
  exact mkSimpleRule_noCaptures _ _ _ _

/-- Witness for C3 (amended) on the spec's scenario 6: the outer rule
matches `"abc123def"` whole; its sub-spans tile the match, `abc` and `def`
as parent-styled gaps around the digit spans. -/
theorem claim_C3_witness :
    tiles (outerRuleC3.matchAtPosition {} (fun _ => [])
        ['a', 'b', 'c', '1', '2', '3', 'd', 'e', 'f'] 0).sub_spans 0
      (outerRuleC3.matchAtPosition {} (fun _ => [])
        ['a', 'b', 'c', '1', '2', '3', 'd', 'e', 'f'] 0).length = true :=
  (claim_C3_sub_tiling {} (fun _ => []) outerRuleC3
    ['a', 'b', 'c', '1', '2', '3', 'd', 'e', 'f'] 0
    outerRuleC3_wf outerRuleC3_noCaptures (by decide)).1 (by decide)

/-- A sub-matcher for the substring `"bc"` whose rule declares one capture
group covering only the `b`. -/
def bcPartialMatcher : List Char → Nat → Option SearchResult :=
  fun text pos =>
    match firstOccurFrom ['b', 'c'] text (text.length - pos) pos with
    | none => none
    | some i =>
      some { start := i, stop := i + 2,
             groups := [some (i, i + 2), some (i, i + 2), some (i, i + 1)] }

/-- A sub-grammar whose single rule has a capture group. -/
def capSubRule : StateRule := .mk bcPartialMatcher [.mk 1 1 [5, 6] (-1) none] (-1)

/-- An outer rule descending into the capture-group sub-grammar. -/
def outerRuleCap : StateRule :=
  .mk matchAllLine [.mk 1 0 [9] (-1) (some capSubRule)] (-1)

/-- Counterexample to C3 as stated: on `"abc"`, the outer rule matches the
whole line and descends; the sub-match `"bc"` emits only its capture
group's span, so the collected sub-spans do not tile the match region. -/
theorem claim_C3_counterexample :
    (outerRuleCap.matchAtPosition {} (fun _ => []) ['a', 'b', 'c'] 0).matched = true ∧
    (outerRuleCap.matchAtPosition {} (fun _ => []) ['a', 'b', 'c'] 0).sub_spans ≠ [] ∧
    tiles (outerRuleCap.matchAtPosition {} (fun _ => []) ['a', 'b', 'c'] 0).sub_spans 0
      (outerRuleCap.matchAtPosition {} (fun _ => []) ['a', 'b', 'c'] 0).length = false := by
  decide

/-- Restamp a span for line `ln` at line-start offset `off`: exactly the
fields `addLineHighlightResult` derives from the line info. -/
def restampSpan (ln off : Nat) (s : TokenSpan) : TokenSpan :=
  { s with range :=
      { start := { line := ln, column := s.range.start.column,
                   index := off + s.range.start.column },
        stop := { line := ln, column := s.range.stop.column,
                  index := off + s.range.stop.column } } }

theorem emittedSpans_restamp (g : SyntaxRule) (cfg : HighlightConfig)
    (i i' : TextLineInfo) (st : Int) (mr : MatchResult) :
    emittedSpans g cfg i st mr =
      (emittedSpans g cfg i' st mr).map
        (restampSpan i.line i.start_char_offset) := by
  unfold emittedSpans
  by_cases h1 : mr.sub_spans ≠ []
  · rw [if_pos h1, if_pos h1, List.map_map]
    rfl
  · rw [if_neg h1, if_neg h1]
    by_cases h2 : mr.capture_groups = []
    · rw [if_pos h2, if_pos h2]
      simp [restampSpan, Nat.add_assoc]
    · rw [if_neg h2, if_neg h2, List.map_map]
      apply List.map_congr_left
      intro gm _
      simp [restampSpan, Nat.add_assoc]

theorem pushOrMergeSpanList_restamp (ln off : Nat) :
    ∀ (l : List TokenSpan) (s : TokenSpan),
      pushOrMergeSpanList (l.map (restampSpan ln off)) (restampSpan ln off s) =
        (pushOrMergeSpanList l s).map (restampSpan ln off) := by
  intro l
  induction l with
  | nil => intro s; rfl
  | cons a rest ih =>
    intro s
    cases rest with
    | nil =>
      simp only [List.map_cons, List.map_nil, pushOrMergeSpanList]
      by_cases hcond : a.range.stop.column = s.range.start.column ∧ a.style_id = s.style_id
      · rw [if_pos hcond, if_pos (by exact hcond)]
        rfl
      · rw [if_neg hcond, if_neg (by exact hcond)]
        rfl
    | cons b rest' =>
      simp only [List.map_cons, pushOrMergeSpanList]
      rw [← List.map_cons (restampSpan ln off) b rest', ih]

theorem foldl_pushOrMerge_restamp (ln off : Nat) :
    ∀ (es : List TokenSpan) (l : List TokenSpan),
      ((es.map (restampSpan ln off)).foldl LineHighlight.pushOrMergeSpan
          ⟨l.map (restampSpan ln off)⟩).spans =
        ((es.foldl LineHighlight.pushOrMergeSpan ⟨l⟩).spans).map (restampSpan ln off) := by
  intro es
  induction es with
  | nil => intro l; rfl
  | cons e rest ih =>
    intro l
    simp only [List.map_cons, List.foldl_cons]
    have hstep : (⟨l.map (restampSpan ln off)⟩ : LineHighlight).pushOrMergeSpan
        (restampSpan ln off e) = ⟨(pushOrMergeSpanList l e).map (restampSpan ln off)⟩ := by
      unfold LineHighlight.pushOrMergeSpan
      dsimp only
      rw [pushOrMergeSpanList_restamp]
    rw [hstep]
    exact ih (pushOrMergeSpanList l e)

theorem addLineHighlightResult_restamp (g : SyntaxRule) (cfg : HighlightConfig)
    (i i' : TextLineInfo) (st : Int) (mr : MatchResult) (l : List TokenSpan) :
    (addLineHighlightResult g cfg ⟨l.map (restampSpan i.line i.start_char_offset)⟩ i st mr).spans =
      ((addLineHighlightResult g cfg ⟨l⟩ i' st mr).spans).map
        (restampSpan i.line i.start_char_offset) := by
  unfold addLineHighlightResult
  rw [emittedSpans_restamp g cfg i i' st mr]
  exact foldl_pushOrMerge_restamp _ _ _ l

theorem analyzeLineLoop_restamp (g : SyntaxRule) (cfg : HighlightConfig)
    (text : List Char) (i i' : TextLineInfo) :
    ∀ (fuel pos : Nat) (state : Int) (l : List TokenSpan),
      (analyzeLineLoop g cfg text i fuel pos state
          ⟨l.map (restampSpan i.line i.start_char_offset)⟩).1.spans =
        ((analyzeLineLoop g cfg text i' fuel pos state ⟨l⟩).1.spans).map
          (restampSpan i.line i.start_char_offset) ∧
      (analyzeLineLoop g cfg text i fuel pos state
          ⟨l.map (restampSpan i.line i.start_char_offset)⟩).2 =
        (analyzeLineLoop g cfg text i' fuel pos state ⟨l⟩).2 := by
  intro fuel
  induction fuel with
  | zero => intro pos state l; exact ⟨rfl, rfl⟩
  | succ fuel ih =>
    intro pos state l
    by_cases hpos : pos < text.length
    · simp only [analyzeLineLoop, if_pos hpos]
      by_cases hm : (g.matchAtPositionState cfg text pos state).matched = true
      · simp only [hm, if_true]
        have hadd := addLineHighlightResult_restamp g cfg i i' state
          (g.matchAtPositionState cfg text pos state) l
        have hrepack : addLineHighlightResult g cfg
            ⟨l.map (restampSpan i.line i.start_char_offset)⟩ i state
            (g.matchAtPositionState cfg text pos state) =
            ⟨((addLineHighlightResult g cfg ⟨l⟩ i' state
                (g.matchAtPositionState cfg text pos state)).spans).map
              (restampSpan i.line i.start_char_offset)⟩ :=
          congrArg LineHighlight.mk hadd
        rw [hrepack]
        exact ih ((g.matchAtPositionState cfg text pos state).start +
            (g.matchAtPositionState cfg text pos state).length)
          (if 0 ≤ (g.matchAtPositionState cfg text pos state).goto_state then
            (g.matchAtPositionState cfg text pos state).goto_state else state)
          ((addLineHighlightResult g cfg ⟨l⟩ i' state
            (g.matchAtPositionState cfg text pos state)).spans)
      · simp only [hm, Bool.false_eq_true, if_false]
        exact ih (pos + 1) state l
    · simp only [analyzeLineLoop, if_neg hpos]
      trivial

/-- The canonical line info for a start state: line 0, offset 0. -/
def canonInfo (s : Int) : TextLineInfo :=
  { line := 0, start_state := s, start_char_offset := 0 }

/-- A line's result is its canonical result restamped with the line number
and offset: those enter only through the spans' `line` and `index` fields. -/
theorem analyzeLine_restamp (g : SyntaxRule) (cfg : HighlightConfig)
    (text : List Char) (i : TextLineInfo) :
    (analyzeLine g cfg text i).highlight.spans =
      ((analyzeLine g cfg text (canonInfo i.start_state)).highlight.spans).map
        (restampSpan i.line i.start_char_offset) ∧
    (analyzeLine g cfg text i).end_state =
      (analyzeLine g cfg text (canonInfo i.start_state)).end_state := by
  unfold analyzeLine
  by_cases hemp : text.isEmpty
  · rw [if_pos hemp, if_pos hemp]
    exact ⟨rfl, rfl⟩
  · rw [if_neg hemp, if_neg hemp]
    have hmain := analyzeLineLoop_restamp g cfg text i (canonInfo i.start_state)
      text.length 0 i.start_state []
    have h1 : (analyzeLineLoop g cfg text i text.length 0 i.start_state {}).1.spans =
        ((analyzeLineLoop g cfg text (canonInfo i.start_state) text.length 0
          i.start_state {}).1.spans).map (restampSpan i.line i.start_char_offset) := hmain.1
    have h2 : (analyzeLineLoop g cfg text i text.length 0 i.start_state {}).2 =
        (analyzeLineLoop g cfg text (canonInfo i.start_state) text.length 0
          i.start_state {}).2 := hmain.2
    dsimp only
    rw [h1, h2]
    exact ⟨rfl, rfl⟩

theorem analyzeLine_span_stamp (g : SyntaxRule) (cfg : HighlightConfig)
    (text : List Char) (i : TextLineInfo) :
    ∀ sp ∈ (analyzeLine g cfg text i).highlight.spans,
      sp.range.start.line = i.line ∧ sp.range.stop.line = i.line ∧
      sp.range.start.index = i.start_char_offset + sp.range.start.column ∧
      sp.range.stop.index = i.start_char_offset + sp.range.stop.column := by
  intro sp hsp
  rw [(analyzeLine_restamp g cfg text i).1] at hsp
  obtain ⟨sp0, _, rfl⟩ := List.mem_map.1 hsp
  exact ⟨rfl, rfl, rfl, rfl⟩

theorem spanEqModLI_restamp (ln off ln' off' : Nat) (x : TokenSpan) :
    spanEqModLI (restampSpan ln off x) (restampSpan ln' off' x) :=
  ⟨rfl, rfl, rfl, rfl, rfl⟩

theorem forall₂_map_same {f h : TokenSpan → TokenSpan}
    (hfh : ∀ x, spanEqModLI (f x) (h x)) :
    ∀ l : List TokenSpan, List.Forall₂ spanEqModLI (l.map f) (l.map h) := by
  intro l
  induction l with
  | nil => exact List.Forall₂.nil
  | cons a rest ih => exact List.Forall₂.cons (hfh a) ih

/-- Lines with the same text and start state have the same spans up to the
stamped `line` and `index` fields, and the same end state. -/
theorem analyzeLine_modLI (g : SyntaxRule) (cfg : HighlightConfig)
    (text : List Char) (i i' : TextLineInfo) (h : i.start_state = i'.start_state) :
    lineEqModLI (analyzeLine g cfg text i).highlight
      (analyzeLine g cfg text i').highlight := by
  unfold lineEqModLI
  rw [(analyzeLine_restamp g cfg text i).1, (analyzeLine_restamp g cfg text i').1, h]
  exact forall₂_map_same (fun x => spanEqModLI_restamp _ _ _ _ x) _

theorem analyzeLine_end_state_congr (g : SyntaxRule) (cfg : HighlightConfig)
    (text : List Char) (i i' : TextLineInfo) (h : i.start_state = i'.start_state) :
    (analyzeLine g cfg text i).end_state = (analyzeLine g cfg text i').end_state := by
  rw [(analyzeLine_restamp g cfg text i).2, (analyzeLine_restamp g cfg text i').2, h]

theorem spanEqModLI_trans {a b c : TokenSpan} (h1 : spanEqModLI a b)
    (h2 : spanEqModLI b c) : spanEqModLI a c := by
  obtain ⟨x1, x2, x3, x4, x5⟩ := h1
  obtain ⟨y1, y2, y3, y4, y5⟩ := h2
  exact ⟨x1.trans y1, x2.trans y2, x3.trans y3, x4.trans y4, x5.trans y5⟩

theorem forall₂_modLI_trans :
    ∀ {l1 l2 l3 : List TokenSpan}, List.Forall₂ spanEqModLI l1 l2 →
      List.Forall₂ spanEqModLI l2 l3 → List.Forall₂ spanEqModLI l1 l3 := by
  intro l1 l2 l3 h1
  induction h1 generalizing l3 with
  | nil =>
    intro h2
    cases h2
    exact List.Forall₂.nil
  | cons hab hrest ih =>
    intro h2
    cases h2 with
    | cons hbc hrest2 =>
      exact List.Forall₂.cons (spanEqModLI_trans hab hbc) (ih hrest2)

theorem lineEqModLI_trans {a b c : LineHighlight} (h1 : lineEqModLI a b)
    (h2 : lineEqModLI b c) : lineEqModLI a c :=
  forall₂_modLI_trans h1 h2

theorem forall₂_modLI_refl : ∀ l : List TokenSpan, List.Forall₂ spanEqModLI l l := by
  intro l
  induction l with
  | nil => exact List.Forall₂.nil
  | cons x rest ih => exact List.Forall₂.cons ⟨rfl, rfl, rfl, rfl, rfl⟩ ih

theorem lineEqModLI_refl (a : LineHighlight) : lineEqModLI a a :=
  forall₂_modLI_refl a.spans

theorem lineEqModLI_of_eq {a b : LineHighlight} (h : a = b) : lineEqModLI a b := by
  subst h
  exact lineEqModLI_refl a

/-- End-of-line state as a function of the line text and start state alone
(the line number and offset do not influence it). -/
def endStateOf (g : SyntaxRule) (cfg : HighlightConfig) (text : List Char) (s : Int) : Int :=
  (analyzeLine g cfg text (canonInfo s)).end_state

/-- The start-of-line state of line `j0 + m` when re-tokenizing from line
`j0` of `doc` in state `seed`. -/
def rerunStartFrom (g : SyntaxRule) (cfg : HighlightConfig) (doc : List DocumentLine)
    (j0 : Nat) (seed : Int) : Nat → Int
  | 0 => seed
  | m + 1 => endStateOf g cfg (doc.getD (j0 + m) {}).text
      (rerunStartFrom g cfg doc j0 seed m)

/-- Total character weight of a line list: text plus ending widths;
`charIndexOfLine doc n` is the weight of the first `n` lines. -/
def docWeight (l : List DocumentLine) : Nat :=
  (l.map fun dl => dl.text.length + lineEndingWidth dl.ending).sum

theorem charIndexOfLine_eq_docWeight (doc : List DocumentLine) (n : Nat) :
    charIndexOfLine doc n = docWeight (doc.take n) := rfl

theorem docWeight_take_succ {doc : List DocumentLine} {n : Nat} (h : n < doc.length) :
    docWeight (doc.take (n + 1)) =
      docWeight (doc.take n) + ((doc.getD n {}).text.length +
        lineEndingWidth (doc.getD n {}).ending) := by
  rw [List.take_succ]
  unfold docWeight
  rw [List.map_append, List.sum_append]
  congr 1
  have : doc[n]? = some (doc.getD n {}) := by
    rw [List.getElem?_eq_getElem h]
    rw [List.getD_eq_getElem?_getD]
    rw [List.getElem?_eq_getElem h]
    rfl
  rw [this]
  simp

theorem charIndexOfLine_succ {doc : List DocumentLine} {n : Nat} (h : n < doc.length) :
    charIndexOfLine doc (n + 1) =
      charIndexOfLine doc n + ((doc.getD n {}).text.length +
        lineEndingWidth (doc.getD n {}).ending) := by
  rw [charIndexOfLine_eq_docWeight, charIndexOfLine_eq_docWeight]
  exact docWeight_take_succ h

theorem rerunStartFrom_cons (g : SyntaxRule) (cfg : HighlightConfig)
    (dl : DocumentLine) (rest : List DocumentLine) (s : Int) :
    ∀ m, rerunStartFrom g cfg (dl :: rest) 0 s (m + 1) =
      rerunStartFrom g cfg rest 0 (endStateOf g cfg dl.text s) m := by
  intro m
  induction m with
  | zero => rfl
  | succ m ih =>
    show endStateOf g cfg ((dl :: rest).getD (0 + (m + 1)) {}).text
        (rerunStartFrom g cfg (dl :: rest) 0 s (m + 1)) = _
    rw [ih]
    rfl

theorem analyzeDocLines_length (g : SyntaxRule) (cfg : HighlightConfig) :
    ∀ (lines : List DocumentLine) (ln : Nat) (s : Int) (off : Nat),
      (analyzeDocLines g cfg lines ln s off).1.length = lines.length ∧
      (analyzeDocLines g cfg lines ln s off).2.length = lines.length := by
  intro lines
  induction lines with
  | nil => intro ln s off; exact ⟨rfl, rfl⟩
  | cons dl rest ih =>
    intro ln s off
    simp only [analyzeDocLines, List.length_cons]
    constructor
    · rw [(ih _ _ _).1]
    · rw [(ih _ _ _).2]

theorem analyzeLine_end_eq_endStateOf (g : SyntaxRule) (cfg : HighlightConfig)
    (text : List Char) (ln : Nat) (s : Int) (off : Nat) :
    (analyzeLine g cfg text ⟨ln, s, off⟩).end_state = endStateOf g cfg text s :=
  analyzeLine_end_state_congr g cfg text _ _ rfl

theorem analyzeDocLines_getD (g : SyntaxRule) (cfg : HighlightConfig) :
    ∀ (lines : List DocumentLine) (ln : Nat) (s : Int) (off : Nat) (k : Nat),
      k < lines.length →
      (analyzeDocLines g cfg lines ln s off).1.getD k 0 =
        rerunStartFrom g cfg lines 0 s (k + 1) ∧
      (analyzeDocLines g cfg lines ln s off).2.getD k {} =
        (analyzeLine g cfg (lines.getD k {}).text
          ⟨ln + k, rerunStartFrom g cfg lines 0 s k, off + docWeight (lines.take k)⟩).highlight := by
  intro lines
  induction lines with
  | nil => intro ln s off k hk; cases hk
  | cons dl rest ih =>
    intro ln s off k hk
    simp only [analyzeDocLines]
    cases k with
    | zero =>
      constructor
      · show (analyzeLine g cfg dl.text ⟨ln, s, off⟩).end_state = _
        rw [analyzeLine_end_eq_endStateOf]
        rfl
      · show (analyzeLine g cfg dl.text ⟨ln, s, off⟩).highlight = _
        congr 1
      
    | succ k =>
      have hk' : k < rest.length := by
        simp only [List.length_cons] at hk
        omega
      obtain ⟨ih1, ih2⟩ := ih (ln + 1)
        (analyzeLine g cfg dl.text ⟨ln, s, off⟩).end_state
        (off + (analyzeLine g cfg dl.text ⟨ln, s, off⟩).char_count +
          lineEndingWidth dl.ending) k hk'
      constructor
      · show (analyzeDocLines g cfg rest (ln + 1) _ _).1.getD k 0 = _
        rw [ih1, analyzeLine_end_eq_endStateOf, rerunStartFrom_cons]
      · show (analyzeDocLines g cfg rest (ln + 1) _ _).2.getD k {} = _
        rw [ih2]
        rw [analyzeLine_end_eq_endStateOf]
        rw [analyzeLine_char_count]
        rw [rerunStartFrom_cons]
        congr 1
        have hw : docWeight (List.take (k + 1) (dl :: rest)) =
            dl.text.length + lineEndingWidth dl.ending + docWeight (List.take k rest) := by
          show docWeight (dl :: List.take k rest) = _
          unfold docWeight
          simp [Nat.add_assoc]
        rw [hw]
        rw [show (dl :: rest).getD (k + 1) ({} : DocumentLine) = rest.getD k {} from rfl]
        congr 1
        simp only [TextLineInfo.mk.injEq]
        exact ⟨by omega, trivial, by omega⟩

theorem getD_set_eq {A : Type} {l : List A} {i : Nat} {a : A}
    (h : i < l.length) (d : A) : (l.set i a).getD i d = a := by
  simp [List.getD_eq_getElem?_getD, List.getElem?_set_self', h]

theorem getD_set_ne {A : Type} {l : List A} {i j : Nat} {a : A}
    (h : i ≠ j) (d : A) : (l.set i a).getD j d = l.getD j d := by
  simp [List.getD_eq_getElem?_getD, List.getElem?_set_ne h]

theorem getD_take {A : Type} {l : List A} {n k : Nat} (h : k < n) (d : A) :
    (l.take n).getD k d = l.getD k d := by
  simp [List.getD_eq_getElem?_getD, List.getElem?_take, h]

theorem getD_drop {A : Type} (l : List A) (n k : Nat) (d : A) :
    (l.drop n).getD k d = l.getD (n + k) d := by
  simp [List.getD_eq_getElem?_getD, List.getElem?_drop]

/-- Length of the spliced vector: old length plus the net line change. -/
theorem spliceVec_length {A : Type} [Inhabited A] {v : List A} {sL eL nNew : Nat}
    (hse : sL ≤ eL) (hel : eL < v.length) (hn : 1 ≤ nNew) :
    (spliceVec v sL eL nNew).length = v.length + nNew - (eL - sL + 1) := by
  unfold spliceVec
  dsimp only
  split
  · rename_i hlt
    rw [List.length_append, List.length_take, List.length_drop]
    omega
  · split
    · rename_i hgt
      rw [List.length_append, List.length_append, List.length_take,
        List.length_replicate, List.length_drop]
      omega
    · omega

theorem spliceVec_front {A : Type} [Inhabited A] {v : List A} {sL eL nNew : Nat}
    (hse : sL ≤ eL) (hel : eL < v.length) {k : Nat} (hk : k < sL) (d : A) :
    (spliceVec v sL eL nNew).getD k d = v.getD k d := by
  unfold spliceVec
  dsimp only
  split
  · rename_i hlt
    rw [List.getD_append _ _ _ _ (by rw [List.length_take]; omega)]
    exact getD_take (by omega) d
  · split
    · rename_i hgt
      rw [List.getD_append _ _ _ _
        (by rw [List.length_append, List.length_take, List.length_replicate]; omega)]
      rw [List.getD_append _ _ _ _ (by rw [List.length_take]; omega)]
      exact getD_take (by omega) d
    · rfl

theorem spliceVec_tail {A : Type} [Inhabited A] {v : List A} {sL eL nNew : Nat}
    (hse : sL ≤ eL) (hel : eL < v.length) (hn : 1 ≤ nNew) {k : Nat}
    (hk : sL + nNew ≤ k) (d : A) :
    (spliceVec v sL eL nNew).getD k d = v.getD (k + (eL - sL + 1) - nNew) d := by
  unfold spliceVec
  dsimp only
  split
  · rename_i hlt
    rw [List.getD_append_right _ _ _ _ (by rw [List.length_take]; omega)]
    rw [List.length_take]
    rw [getD_drop]
    congr 1
    omega
  · split
    · rename_i hgt
      rw [List.getD_append_right _ _ _ _
        (by rw [List.length_append, List.length_take, List.length_replicate]; omega)]
      rw [List.length_append, List.length_take, List.length_replicate]
      rw [getD_drop]
      congr 1
      omega
    · rename_i h1 h2
      congr 1
      omega

theorem applyEdit_length {doc : List DocumentLine} {e : EditSpec}
    (hv : e.valid doc) :
    (applyEdit doc e).length = doc.length + e.newLines.length - (e.endLine - e.startLine + 1) := by
  obtain ⟨h1, h2, h3⟩ := hv
  unfold applyEdit
  rw [List.length_append, List.length_append, List.length_take, List.length_drop]
  omega

theorem applyEdit_front {doc : List DocumentLine} {e : EditSpec}
    (hv : e.valid doc) {k : Nat} (hk : k < e.startLine) :
    (applyEdit doc e).getD k {} = doc.getD k {} := by
  obtain ⟨h1, h2, h3⟩ := hv
  unfold applyEdit
  rw [List.getD_append _ _ _ _
    (by rw [List.length_append, List.length_take]; omega)]
  rw [List.getD_append _ _ _ _ (by rw [List.length_take]; omega)]
  apply getD_take
  omega

theorem applyEdit_tail {doc : List DocumentLine} {e : EditSpec}
    (hv : e.valid doc) {k : Nat} (hk : e.startLine + e.newLines.length ≤ k) :
    (applyEdit doc e).getD k {} =
      doc.getD (k + (e.endLine - e.startLine + 1) - e.newLines.length) {} := by
  obtain ⟨h1, h2, h3⟩ := hv
  unfold applyEdit
  rw [List.getD_append_right _ _ _ _
    (by rw [List.length_append, List.length_take]; omega)]
  rw [List.length_append, List.length_take, getD_drop]
  congr 1
  omega

theorem applyEdit_take_front {doc : List DocumentLine} {e : EditSpec}
    {n : Nat} (hn : n ≤ e.startLine) (hsl : e.startLine ≤ doc.length) :
    (applyEdit doc e).take n = doc.take n := by
  unfold applyEdit
  rw [List.append_assoc]
  rw [List.take_append_of_le_length (by rw [List.length_take]; omega)]
  rw [List.take_take]
  congr 1
  omega

theorem charIndexOfLine_applyEdit_front {doc : List DocumentLine} {e : EditSpec}
    {n : Nat} (hn : n ≤ e.startLine) (hsl : e.startLine ≤ doc.length) :
    charIndexOfLine (applyEdit doc e) n = charIndexOfLine doc n := by
  unfold charIndexOfLine
  rw [applyEdit_take_front hn hsl]

theorem rerunStartFrom_congr (g : SyntaxRule) (cfg : HighlightConfig)
    {doc1 doc2 : List DocumentLine} (s : Int) :
    ∀ m, (∀ k, k < m → doc1.getD k {} = doc2.getD k {}) →
      rerunStartFrom g cfg doc1 0 s m = rerunStartFrom g cfg doc2 0 s m := by
  intro m
  induction m with
  | zero => intro _; rfl
  | succ m ih =>
    intro h
    show endStateOf g cfg (doc1.getD (0 + m) {}).text _ =
      endStateOf g cfg (doc2.getD (0 + m) {}).text _
    rw [ih (fun k hk => h k (by omega)), h (0 + m) (by omega)]

/-- The `LineAnalyzeResult` the incremental loop computes when it reaches
line `k`, re-tokenizing `doc` from line `j0` in state `seed`: the start
state is chained through `rerunStartFrom` and the offset is the line's
character index. -/
def rerunResult (g : SyntaxRule) (cfg : HighlightConfig) (doc : List DocumentLine)
    (j0 : Nat) (seed : Int) (k : Nat) : LineAnalyzeResult :=
  analyzeLine g cfg (doc.getD k {}).text
    { line := k, start_state := rerunStartFrom g cfg doc j0 seed (k - j0),
      start_char_offset := charIndexOfLine doc k }

/-- The stability test of the incremental loop at slot `k` (highlight.cpp
lines 571-586), phrased against the spliced vectors `states0`/`lines0` and
the re-run result: the line is past `change_end`, the stored end state
equals the recomputed one, and the stored highlight equals the recomputed
one under the C++ `LineHighlight` equality. -/
def stopsAt (g : SyntaxRule) (cfg : HighlightConfig) (doc : List DocumentLine)
    (ce j0 : Nat) (seed : Int) (states0 : List Int) (lines0 : List LineHighlight)
    (k : Nat) : Bool :=
  decide (ce < k) && (states0.getD k 0 == (rerunResult g cfg doc j0 seed k).end_state) &&
    LineHighlight.beqCode (lines0.getD k {}) (rerunResult g cfg doc j0 seed k).highlight

/-- Functional characterization of the incremental re-tokenization loop:
started at line `j` with the invariant state, it stops either at the first
stable line past the change (having just overwritten that slot) or at the
end of the document; every processed slot holds the re-run result, every
other slot is untouched, and the returned index is the character index of
the returned line. -/
theorem incrementalLoop_spec (g : SyntaxRule) (cfg : HighlightConfig)
    (doc : List DocumentLine) (ce j0 : Nat) (seed : Int)
    (states0 : List Int) (lines0 : List LineHighlight) :
    ∀ (fuel j : Nat) (cur : Int) (idx : Nat)
      (states : List Int) (lines : List LineHighlight)
      (lineEnd idxEnd : Nat) (states1 : List Int) (lines1 : List LineHighlight),
      fuel = doc.length - j → j0 ≤ j → j ≤ doc.length →
      cur = rerunStartFrom g cfg doc j0 seed (j - j0) →
      idx = charIndexOfLine doc j →
      states.length = doc.length → lines.length = doc.length →
      (∀ k, (k < j0 ∨ j ≤ k) →
        states.getD k 0 = states0.getD k 0 ∧ lines.getD k {} = lines0.getD k {}) →
      (∀ k, j0 ≤ k → k < j →
        states.getD k 0 = (rerunResult g cfg doc j0 seed k).end_state ∧
        lines.getD k {} = (rerunResult g cfg doc j0 seed k).highlight) →
      (∀ k, j0 ≤ k → k < j → stopsAt g cfg doc ce j0 seed states0 lines0 k = false) →
      incrementalLoop g cfg doc ce fuel j cur idx states lines =
        (lineEnd, idxEnd, states1, lines1) →
      (j ≤ lineEnd ∧ lineEnd ≤ doc.length ∧
       idxEnd = charIndexOfLine doc lineEnd ∧
       states1.length = doc.length ∧ lines1.length = doc.length ∧
       (∀ k, (k < j0 ∨ lineEnd ≤ k) →
         states1.getD k 0 = states0.getD k 0 ∧ lines1.getD k {} = lines0.getD k {}) ∧
       (∀ k, j0 ≤ k → k < lineEnd →
         states1.getD k 0 = (rerunResult g cfg doc j0 seed k).end_state ∧
         lines1.getD k {} = (rerunResult g cfg doc j0 seed k).highlight) ∧
       ((lineEnd = doc.length ∧
           ∀ k, j0 ≤ k → k < doc.length →
             stopsAt g cfg doc ce j0 seed states0 lines0 k = false) ∨
        (lineEnd - 1 < doc.length ∧ j0 ≤ lineEnd - 1 ∧ 1 ≤ lineEnd ∧
          stopsAt g cfg doc ce j0 seed states0 lines0 (lineEnd - 1) = true ∧
          ∀ k, j0 ≤ k → k < lineEnd - 1 →
            stopsAt g cfg doc ce j0 seed states0 lines0 k = false))) := by
  intro fuel
  induction fuel with
  | zero =>
    intro j cur idx states lines lineEnd idxEnd states1 lines1
      hfuel hj0 hjlen hcur hidx hsl hll hun hpr hns heq
    subst hcur
    subst hidx
    have hj : j = doc.length := by omega
    simp only [incrementalLoop, Prod.mk.injEq] at heq
    obtain ⟨rfl, rfl, rfl, rfl⟩ := heq
    refine ⟨le_refl j, by omega, rfl, hsl, hll, hun, hpr, Or.inl ⟨hj, ?_⟩⟩
    intro k hk1 hk2
    exact hns k hk1 (by omega)
  | succ fuel ih =>
    intro j cur idx states lines lineEnd idxEnd states1 lines1
      hfuel hj0 hjlen hcur hidx hsl hll hun hpr hns heq
    subst hcur
    subst hidx
    have hjlt : j < doc.length := by omega
    have hold : states.getD j 0 = states0.getD j 0 := (hun j (Or.inr (le_refl j))).1
    have holdl : lines.getD j {} = lines0.getD j {} := (hun j (Or.inr (le_refl j))).2
    have hr : analyzeLine g cfg (doc.getD j {}).text
        { line := j, start_state := rerunStartFrom g cfg doc j0 seed (j - j0),
          start_char_offset := charIndexOfLine doc j } =
        rerunResult g cfg doc j0 seed j := rfl
    simp only [incrementalLoop] at heq
    rw [if_pos hjlt] at heq
    rw [hr, hold, holdl] at heq
    have hcc : (rerunResult g cfg doc j0 seed j).char_count =
        (doc.getD j {}).text.length := analyzeLine_char_count g cfg _ _
    have hidx' : charIndexOfLine doc j + (rerunResult g cfg doc j0 seed j).char_count +
        lineEndingWidth (doc.getD j {}).ending = charIndexOfLine doc (j + 1) := by
      rw [hcc, charIndexOfLine_succ hjlt]
      omega
    split at heq
    · rename_i hst
      simp only [Prod.mk.injEq] at heq
      obtain ⟨rfl, rfl, rfl, rfl⟩ := heq
      refine ⟨by omega, by omega, hidx', by rw [List.length_set]; exact hsl,
        by rw [List.length_set]; exact hll, ?_, ?_, Or.inr ?_⟩
      · intro k hk
        have hjk : j ≠ k := by
          obtain hk | hk := hk <;> omega
        rw [getD_set_ne hjk, getD_set_ne hjk]
        refine hun k ?_
        obtain hk | hk := hk
        · exact Or.inl hk
        · exact Or.inr (by omega)
      · intro k hk1 hk2
        by_cases hkj : k = j
        · subst hkj
          constructor
          · rw [getD_set_eq (by rw [hsl]; exact hjlt)]
          · rw [getD_set_eq (by rw [hll]; exact hjlt)]
        · have hklt : k < j := by omega
          rw [getD_set_ne (by omega), getD_set_ne (by omega)]
          exact hpr k hk1 hklt
      · simp only [Nat.add_sub_cancel]
        exact ⟨hjlt, hj0, by omega, hst, hns⟩
    · rename_i hst
      have hst' : stopsAt g cfg doc ce j0 seed states0 lines0 j = false := by
        cases hb : stopsAt g cfg doc ce j0 seed states0 lines0 j
        · rfl
        · exact absurd hb hst
      have hcur' : (rerunResult g cfg doc j0 seed j).end_state =
          rerunStartFrom g cfg doc j0 seed (j + 1 - j0) := by
        rw [show j + 1 - j0 = (j - j0) + 1 from by omega]
        show _ = endStateOf g cfg (doc.getD (j0 + (j - j0)) {}).text
          (rerunStartFrom g cfg doc j0 seed (j - j0))
        rw [show j0 + (j - j0) = j from by omega]
        exact analyzeLine_end_eq_endStateOf g cfg (doc.getD j {}).text j _
          (charIndexOfLine doc j)
      have hun' : ∀ k, (k < j0 ∨ j + 1 ≤ k) →
          (states.set j (rerunResult g cfg doc j0 seed j).end_state).getD k 0 =
            states0.getD k 0 ∧
          (lines.set j (rerunResult g cfg doc j0 seed j).highlight).getD k {} =
            lines0.getD k {} := by
        intro k hk
        have hjk : j ≠ k := by
          obtain hk | hk := hk <;> omega
        rw [getD_set_ne hjk, getD_set_ne hjk]
        refine hun k ?_
        obtain hk | hk := hk
        · exact Or.inl hk
        · exact Or.inr (by omega)
      have hpr' : ∀ k, j0 ≤ k → k < j + 1 →
          (states.set j (rerunResult g cfg doc j0 seed j).end_state).getD k 0 =
            (rerunResult g cfg doc j0 seed k).end_state ∧
          (lines.set j (rerunResult g cfg doc j0 seed j).highlight).getD k {} =
            (rerunResult g cfg doc j0 seed k).highlight := by
        intro k hk1 hk2
        by_cases hkj : k = j
        · subst hkj
          constructor
          · rw [getD_set_eq (by rw [hsl]; exact hjlt)]
          · rw [getD_set_eq (by rw [hll]; exact hjlt)]
        · have hklt : k < j := by omega
          rw [getD_set_ne (by omega), getD_set_ne (by omega)]
          exact hpr k hk1 hklt
      have hns' : ∀ k, j0 ≤ k → k < j + 1 →
          stopsAt g cfg doc ce j0 seed states0 lines0 k = false := by
        intro k hk1 hk2
        by_cases hkj : k = j
        · subst hkj
          exact hst'
        · exact hns k hk1 (by omega)
      obtain ⟨c1, c2, c3, c4, c5, c6, c7, c8⟩ :=
        ih (j + 1) _ _ _ _ lineEnd idxEnd states1 lines1 (by omega) (by omega)
          (by omega) hcur' hidx' (by rw [List.length_set]; exact hsl)
          (by rw [List.length_set]; exact hll) hun' hpr' hns' heq
      exact ⟨by omega, c2, c3, c4, c5, c6, c7, c8⟩

/-- The full-analysis end-of-line state vector of a document: the
`m_line_syntax_states_` written by `analyzeHighlight`. -/
def fullStates (g : SyntaxRule) (cfg : HighlightConfig) (doc : List DocumentLine) : List Int :=
  (analyzeDocLines g cfg doc 0 SyntaxRule.kDefaultStateId 0).1

/-- The full-analysis highlight lines of a document. -/
def fullLines (g : SyntaxRule) (cfg : HighlightConfig) (doc : List DocumentLine) :
    List LineHighlight :=
  (analyzeDocLines g cfg doc 0 SyntaxRule.kDefaultStateId 0).2

theorem fullStates_length (g : SyntaxRule) (cfg : HighlightConfig) (doc : List DocumentLine) :
    (fullStates g cfg doc).length = doc.length :=
  (analyzeDocLines_length g cfg doc 0 SyntaxRule.kDefaultStateId 0).1

theorem fullLines_length (g : SyntaxRule) (cfg : HighlightConfig) (doc : List DocumentLine) :
    (fullLines g cfg doc).length = doc.length :=
  (analyzeDocLines_length g cfg doc 0 SyntaxRule.kDefaultStateId 0).2

theorem fullStates_getD (g : SyntaxRule) (cfg : HighlightConfig) {doc : List DocumentLine}
    {k : Nat} (hk : k < doc.length) :
    (fullStates g cfg doc).getD k 0 =
      rerunStartFrom g cfg doc 0 SyntaxRule.kDefaultStateId (k + 1) :=
  (analyzeDocLines_getD g cfg doc 0 SyntaxRule.kDefaultStateId 0 k hk).1

theorem fullLines_getD (g : SyntaxRule) (cfg : HighlightConfig) {doc : List DocumentLine}
    {k : Nat} (hk : k < doc.length) :
    (fullLines g cfg doc).getD k {} =
      (rerunResult g cfg doc 0 SyntaxRule.kDefaultStateId k).highlight := by
  have h := (analyzeDocLines_getD g cfg doc 0 SyntaxRule.kDefaultStateId 0 k hk).2
  unfold fullLines
  rw [h]
  unfold rerunResult
  simp only [Nat.zero_add, Nat.sub_zero, charIndexOfLine_eq_docWeight]

theorem rerunResult_end (g : SyntaxRule) (cfg : HighlightConfig) (doc : List DocumentLine)
    (k : Nat) :
    (rerunResult g cfg doc 0 SyntaxRule.kDefaultStateId k).end_state =
      rerunStartFrom g cfg doc 0 SyntaxRule.kDefaultStateId (k + 1) := by
  show _ = endStateOf g cfg (doc.getD (0 + k) {}).text
    (rerunStartFrom g cfg doc 0 SyntaxRule.kDefaultStateId k)
  rw [Nat.zero_add]
  exact analyzeLine_end_eq_endStateOf g cfg (doc.getD k {}).text k _ (charIndexOfLine doc k)

/-- Re-tokenizing from line `j0` with the correct seed walks the same state
chain as the full analysis. -/
theorem rerunStartFrom_shift (g : SyntaxRule) (cfg : HighlightConfig)
    (doc : List DocumentLine) (j0 : Nat) (s0 seed : Int)
    (hs : seed = rerunStartFrom g cfg doc 0 s0 j0) :
    ∀ m, rerunStartFrom g cfg doc j0 seed m = rerunStartFrom g cfg doc 0 s0 (j0 + m) := by
  intro m
  induction m with
  | zero => exact hs
  | succ m ih =>
    show endStateOf g cfg (doc.getD (j0 + m) {}).text
      (rerunStartFrom g cfg doc j0 seed m) = _
    rw [ih]
    show _ = endStateOf g cfg (doc.getD (0 + (j0 + m)) {}).text
      (rerunStartFrom g cfg doc 0 s0 (j0 + m))
    rw [Nat.zero_add]

theorem getD_of_len_le {A : Type} {l : List A} {k : Nat} (h : l.length ≤ k) (d : A) :
    l.getD k d = d := by
  rw [List.getD_eq_getElem?_getD, List.getElem?_eq_none h]
  rfl

theorem list_eq_of_getD {A : Type} (d : A) :
    ∀ {l1 l2 : List A}, l1.length = l2.length →
      (∀ k, k < l1.length → l1.getD k d = l2.getD k d) → l1 = l2 := by
  intro l1
  induction l1 with
  | nil =>
    intro l2 hlen _
    cases l2 with
    | nil => rfl
    | cons b t => simp at hlen
  | cons a t ih =>
    intro l2 hlen h
    cases l2 with
    | nil => simp at hlen
    | cons b t2 =>
      have h0 : a = b := h 0 (by simp)
      have ht : t = t2 :=
        ih (by simpa using hlen) (fun k hk => h (k + 1) (by simpa using hk))
      rw [h0, ht]

theorem forall₂_lineEqModLI_of_getD :
    ∀ {l1 l2 : List LineHighlight}, l1.length = l2.length →
      (∀ k, lineEqModLI (l1.getD k {}) (l2.getD k {})) → List.Forall₂ lineEqModLI l1 l2 := by
  intro l1
  induction l1 with
  | nil =>
    intro l2 hlen _
    cases l2 with
    | nil => exact List.Forall₂.nil
    | cons b t => simp at hlen
  | cons a t ih =>
    intro l2 hlen h
    cases l2 with
    | nil => simp at hlen
    | cons b t2 =>
      exact List.Forall₂.cons (h 0) (ih (by simpa using hlen) (fun k => h (k + 1)))

theorem forall₂_map_left {f : TokenSpan → TokenSpan} (hf : ∀ x, spanEqModLI (f x) x) :
    ∀ l : List TokenSpan, List.Forall₂ spanEqModLI (l.map f) l := by
  intro l
  induction l with
  | nil => exact List.Forall₂.nil
  | cons a t ih => exact List.Forall₂.cons (hf a) ih

/-- The per-span rewrite of the index fix-up (highlight.cpp 595-599). -/
def reindexSpan (idx : Nat) (span : TokenSpan) : TokenSpan :=
  { span with range := { span.range with
      start := { span.range.start with index := idx + span.range.start.column },
      stop := { span.range.stop with index := idx + span.range.stop.column } } }

theorem reindexSpan_modLI (idx : Nat) (x : TokenSpan) : spanEqModLI (reindexSpan idx x) x :=
  ⟨rfl, rfl, rfl, rfl, rfl⟩

/-- The spliced state vector local to `analyzeHighlightIncremental`. -/
def incrStates0 (st : AnalyzerState) (e : EditSpec) : List Int :=
  spliceVec st.line_states e.startLine e.endLine e.newLines.length

/-- The spliced highlight vector local to `analyzeHighlightIncremental`. -/
def incrLines0 (st : AnalyzerState) (e : EditSpec) : List LineHighlight :=
  spliceVec st.highlight e.startLine e.endLine e.newLines.length

/-- The seed state of the re-tokenization: `S[change_start − 1]` when
`change_start > 0`, the default state otherwise (highlight.cpp 555-557). -/
def incrSeed (st : AnalyzerState) (e : EditSpec) : Int :=
  if 0 < e.startLine then (incrStates0 st e).getD (e.startLine - 1) 0
  else SyntaxRule.kDefaultStateId

/-- The re-tokenization loop call made by `analyzeHighlightIncremental`:
from `change_start`, in the seed state, at the line's character index, over
the spliced vectors. -/
def incrLoopCall (g : SyntaxRule) (cfg : HighlightConfig) (st : AnalyzerState)
    (e : EditSpec) : Nat × Nat × List Int × List LineHighlight :=
  incrementalLoop g cfg (applyEdit st.doc e) (e.startLine + e.newLines.length - 1)
    ((applyEdit st.doc e).length - e.startLine) e.startLine (incrSeed st e)
    (charIndexOfLine (applyEdit st.doc e) e.startLine) (incrStates0 st e) (incrLines0 st e)

/-- `analyzeHighlightIncremental`, written through the named components of
its loop call. -/
theorem analyzeHighlightIncremental_eq (g : SyntaxRule) (cfg : HighlightConfig)
    (st : AnalyzerState) (e : EditSpec) :
    analyzeHighlightIncremental g cfg st e =
      { doc := applyEdit st.doc e,
        line_states := (incrLoopCall g cfg st e).2.2.1,
        highlight :=
          if cfg.show_index then
            fixupIndices (applyEdit st.doc e)
              ((applyEdit st.doc e).length - (incrLoopCall g cfg st e).1)
              (incrLoopCall g cfg st e).1 (incrLoopCall g cfg st e).2.1
              (incrLoopCall g cfg st e).2.2.2
          else (incrLoopCall g cfg st e).2.2.2 } := rfl

/-- The seed equals the full-analysis start state of line `change_start` in
the patched document, provided the stored state vector is the full one. -/
theorem incrSeed_eq (g : SyntaxRule) (cfg : HighlightConfig) (st : AnalyzerState)
    (e : EditSpec) (hv : e.valid st.doc)
    (hfs : st.line_states = fullStates g cfg st.doc) :
    incrSeed st e =
      rerunStartFrom g cfg (applyEdit st.doc e) 0 SyntaxRule.kDefaultStateId e.startLine := by
  obtain ⟨h1, h2, h3⟩ := hv
  unfold incrSeed
  by_cases h0 : 0 < e.startLine
  · rw [if_pos h0]
    unfold incrStates0
    rw [spliceVec_front h1 (by rw [hfs, fullStates_length]; omega) (by omega)]
    rw [hfs]
    rw [fullStates_getD g cfg (show e.startLine - 1 < st.doc.length by omega)]
    rw [show e.startLine - 1 + 1 = e.startLine from by omega]
    exact rerunStartFrom_congr g cfg SyntaxRule.kDefaultStateId e.startLine
      (fun i hi => (applyEdit_front ⟨h1, h2, h3⟩ hi).symm)
  · rw [if_neg h0]
    rw [show e.startLine = 0 from by omega]
    rfl

theorem fixupIndices_length (doc : List DocumentLine) :
    ∀ fuel line idx lines, (fixupIndices doc fuel line idx lines).length = lines.length := by
  intro fuel
  induction fuel with
  | zero => intro line idx lines; rfl
  | succ fuel ih =>
    intro line idx lines
    simp only [fixupIndices]
    split
    · rw [ih]
      exact List.length_set lines line _
    · rfl

theorem fixupIndices_getD_untouched (doc : List DocumentLine) :
    ∀ fuel line idx lines k, (k < line ∨ doc.length ≤ k) →
      (fixupIndices doc fuel line idx lines).getD k {} = lines.getD k {} := by
  intro fuel
  induction fuel with
  | zero => intro line idx lines k _; rfl
  | succ fuel ih =>
    intro line idx lines k hk
    simp only [fixupIndices]
    split
    · rename_i hlt
      rw [ih (line + 1) _ _ k (by obtain hk | hk := hk; exacts [Or.inl (by omega), Or.inr hk])]
      have hne : line ≠ k := by obtain hk | hk := hk <;> omega
      rw [getD_set_ne hne]
    · rfl

theorem fixupIndices_getD_processed (doc : List DocumentLine) :
    ∀ fuel line idx lines k,
      fuel = doc.length - line → idx = charIndexOfLine doc line →
      lines.length = doc.length → line ≤ k → k < doc.length →
      (fixupIndices doc fuel line idx lines).getD k {} =
        { spans := (lines.getD k {}).spans.map (reindexSpan (charIndexOfLine doc k)) } := by
  intro fuel
  induction fuel with
  | zero => intro line idx lines k hf _ _ hk1 hk2; omega
  | succ fuel ih =>
    intro line idx lines k hf hidx hlen hk1 hk2
    have hlt : line < doc.length := by omega
    simp only [fixupIndices]
    rw [if_pos hlt]
    by_cases hkl : line = k
    · subst hkl
      refine Eq.trans
        (fixupIndices_getD_untouched doc fuel (line + 1) _ _ line (Or.inl (by omega))) ?_
      have hlin : line < lines.length := by
        rw [hlen]
        exact hlt
      rw [getD_set_eq hlin]
      rw [hidx]
      rfl
    · refine Eq.trans (ih (line + 1) _ _ k (by omega) ?_ ?_ (by omega) hk2) ?_
      · rw [hidx, charIndexOfLine_succ hlt]
        rfl
      · rw [List.length_set]
        exact hlen
      · rw [getD_set_ne hkl]

/-- Modelled from the spec: the per-span index/offset invariant (spec
invariant 5), relative to the line slot the span is stored in. -/
def IndexConsistent (doc : List DocumentLine) (lines : List LineHighlight) : Prop :=
  ∀ k, ∀ sp ∈ (lines.getD k {}).spans,
    sp.range.start.index = charIndexOfLine doc k + sp.range.start.column ∧
    sp.range.stop.index = charIndexOfLine doc k + sp.range.stop.column

/-- The analyzer-state invariant preserved by the incremental path: the
stored state vector is the full-analysis one, the highlight has one entry
per document line, each entry agrees with the full analysis up to the
spans' `line` and `index` fields, and when `show_index` is set the stored
indices satisfy the slot-based offset invariant. -/
def AnalyzerInv (g : SyntaxRule) (cfg : HighlightConfig) (st : AnalyzerState) : Prop :=
  st.line_states = fullStates g cfg st.doc ∧
  st.highlight.length = st.doc.length ∧
  (∀ k, lineEqModLI (st.highlight.getD k {}) ((fullLines g cfg st.doc).getD k {})) ∧
  (cfg.show_index = true → IndexConsistent st.doc st.highlight)

/-- Once the re-run chain of the patched document meets the old chain at a
line past the patched range, the two walk in lockstep (offset by the net
line change) to the end of the document. -/
theorem rerunChain_tail (g : SyntaxRule) (cfg : HighlightConfig)
    {doc0 : List DocumentLine} {e : EditSpec} (hv : e.valid doc0)
    {B : Nat} (hB : e.startLine + e.newLines.length ≤ B)
    (hbase : rerunStartFrom g cfg (applyEdit doc0 e) 0 SyntaxRule.kDefaultStateId B =
      rerunStartFrom g cfg doc0 0 SyntaxRule.kDefaultStateId
        (B + (e.endLine - e.startLine + 1) - e.newLines.length)) :
    ∀ k, B ≤ k → k ≤ (applyEdit doc0 e).length →
      rerunStartFrom g cfg (applyEdit doc0 e) 0 SyntaxRule.kDefaultStateId k =
        rerunStartFrom g cfg doc0 0 SyntaxRule.kDefaultStateId
          (k + (e.endLine - e.startLine + 1) - e.newLines.length) := by
  intro k hk
  induction k, hk using Nat.le_induction with
  | base => intro _; exact hbase
  | succ n hn ih =>
    intro hlen
    have ihe := ih (by omega)
    show endStateOf g cfg ((applyEdit doc0 e).getD (0 + n) {}).text
      (rerunStartFrom g cfg (applyEdit doc0 e) 0 SyntaxRule.kDefaultStateId n) = _
    rw [Nat.zero_add, ihe,
      applyEdit_tail hv (show e.startLine + e.newLines.length ≤ n from by omega)]
    rw [show n + 1 + (e.endLine - e.startLine + 1) - e.newLines.length =
      (n + (e.endLine - e.startLine + 1) - e.newLines.length) + 1 from by omega]
    show _ = endStateOf g cfg
      (doc0.getD (0 + (n + (e.endLine - e.startLine + 1) - e.newLines.length)) {}).text
      (rerunStartFrom g cfg doc0 0 SyntaxRule.kDefaultStateId
        (n + (e.endLine - e.startLine + 1) - e.newLines.length))
    rw [Nat.zero_add]

/-- One incremental edit preserves the analyzer invariant, and the stored
document is patched as `Document::patch` prescribes. -/
theorem incrStep (g : SyntaxRule) (cfg : HighlightConfig) (st : AnalyzerState) (e : EditSpec)
    (hinv : AnalyzerInv g cfg st) (hv : e.valid st.doc) :
    AnalyzerInv g cfg (analyzeHighlightIncremental g cfg st e) ∧
    (analyzeHighlightIncremental g cfg st e).doc = applyEdit st.doc e := by
  obtain ⟨hfs0, hhl0, hmod0, hic0⟩ := hinv
  obtain ⟨hse, hel, hnn⟩ := hv
  have hnn1 : 1 ≤ e.newLines.length := List.length_pos.mpr hnn
  have hlen0 : st.line_states.length = st.doc.length := by
    rw [hfs0, fullStates_length]
  have helS : e.endLine < st.line_states.length := by
    rw [hlen0]
    exact hel
  have helH : e.endLine < st.highlight.length := by
    rw [hhl0]
    exact hel
  have hlenD : (applyEdit st.doc e).length =
      st.doc.length + e.newLines.length - (e.endLine - e.startLine + 1) :=
    applyEdit_length ⟨hse, hel, hnn⟩
  have hsL : e.startLine ≤ (applyEdit st.doc e).length := by omega
  have hs0len : (incrStates0 st e).length = (applyEdit st.doc e).length := by
    unfold incrStates0
    rw [spliceVec_length hse helS hnn1, hlen0, hlenD]
  have hl0len : (incrLines0 st e).length = (applyEdit st.doc e).length := by
    unfold incrLines0
    rw [spliceVec_length hse helH hnn1, hhl0, hlenD]
  have hseed : incrSeed st e =
      rerunStartFrom g cfg (applyEdit st.doc e) 0 SyntaxRule.kDefaultStateId e.startLine :=
    incrSeed_eq g cfg st e ⟨hse, hel, hnn⟩ hfs0
  have hshift : ∀ m, rerunStartFrom g cfg (applyEdit st.doc e) e.startLine (incrSeed st e) m =
      rerunStartFrom g cfg (applyEdit st.doc e) 0 SyntaxRule.kDefaultStateId
        (e.startLine + m) :=
    rerunStartFrom_shift g cfg (applyEdit st.doc e) e.startLine SyntaxRule.kDefaultStateId
      (incrSeed st e) hseed
  have hrr : ∀ k, e.startLine ≤ k →
      rerunResult g cfg (applyEdit st.doc e) e.startLine (incrSeed st e) k =
        rerunResult g cfg (applyEdit st.doc e) 0 SyntaxRule.kDefaultStateId k := by
    intro k hk
    unfold rerunResult
    rw [hshift (k - e.startLine),
      show e.startLine + (k - e.startLine) = k from by omega, Nat.sub_zero]
  obtain ⟨c1, c2, c3, c4, c5, c6, c7, c8⟩ :=
    incrementalLoop_spec g cfg (applyEdit st.doc e) (e.startLine + e.newLines.length - 1)
      e.startLine (incrSeed st e) (incrStates0 st e) (incrLines0 st e)
      ((applyEdit st.doc e).length - e.startLine) e.startLine (incrSeed st e)
      (charIndexOfLine (applyEdit st.doc e) e.startLine)
      (incrStates0 st e) (incrLines0 st e)
      (incrLoopCall g cfg st e).1 (incrLoopCall g cfg st e).2.1
      (incrLoopCall g cfg st e).2.2.1 (incrLoopCall g cfg st e).2.2.2
      rfl (le_refl _) hsL
      (by rw [Nat.sub_self]; rfl) rfl hs0len hl0len
      (fun k _ => ⟨rfl, rfl⟩)
      (fun k hk1 hk2 => absurd hk2 (by omega))
      (fun k hk1 hk2 => absurd hk2 (by omega))
      rfl
  have htail : ∀ k, (incrLoopCall g cfg st e).1 ≤ k → k < (applyEdit st.doc e).length →
      ((incrStates0 st e).getD k 0 =
        rerunStartFrom g cfg (applyEdit st.doc e) 0 SyntaxRule.kDefaultStateId (k + 1) ∧
       lineEqModLI ((incrLines0 st e).getD k {})
        ((fullLines g cfg (applyEdit st.doc e)).getD k {})) := by
    cases c8 with
    | inl hend =>
      obtain ⟨hE, _⟩ := hend
      intro k hk1 hk2
      exact absurd hk2 (by omega)
    | inr hstab =>
      obtain ⟨hL2, hL0, hL1, hstop, hmin⟩ := hstab
      have hs := hstop
      unfold stopsAt at hs
      rw [Bool.and_eq_true, Bool.and_eq_true] at hs
      obtain ⟨⟨hce, hsteq⟩, hbeq⟩ := hs
      have hceL : e.startLine + e.newLines.length - 1 < (incrLoopCall g cfg st e).1 - 1 :=
        of_decide_eq_true hce
      have hstEq : (incrStates0 st e).getD ((incrLoopCall g cfg st e).1 - 1) 0 =
          (rerunResult g cfg (applyEdit st.doc e) e.startLine (incrSeed st e)
            ((incrLoopCall g cfg st e).1 - 1)).end_state := eq_of_beq hsteq
      have hLge : e.startLine + e.newLines.length ≤ (incrLoopCall g cfg st e).1 - 1 := by
        omega
      have hbase : rerunStartFrom g cfg (applyEdit st.doc e) 0 SyntaxRule.kDefaultStateId
          (incrLoopCall g cfg st e).1 =
          rerunStartFrom g cfg st.doc 0 SyntaxRule.kDefaultStateId
            ((incrLoopCall g cfg st e).1 + (e.endLine - e.startLine + 1) -
              e.newLines.length) := by
        rw [show (incrLoopCall g cfg st e).1 = ((incrLoopCall g cfg st e).1 - 1) + 1 from
          by omega]
        rw [← rerunResult_end g cfg (applyEdit st.doc e) ((incrLoopCall g cfg st e).1 - 1)]
        rw [← hrr ((incrLoopCall g cfg st e).1 - 1) (by omega)]
        rw [← hstEq]
        unfold incrStates0
        rw [spliceVec_tail hse helS hnn1 hLge]
        rw [hfs0]
        rw [fullStates_getD g cfg
          (show ((incrLoopCall g cfg st e).1 - 1) + (e.endLine - e.startLine + 1) -
            e.newLines.length < st.doc.length from by omega)]
        congr 1
        omega
      have hchain := rerunChain_tail g cfg ⟨hse, hel, hnn⟩
        (show e.startLine + e.newLines.length ≤ (incrLoopCall g cfg st e).1 from by omega)
        hbase
      intro k hk1 hk2
      have hkge : e.startLine + e.newLines.length ≤ k := by omega
      have hkOld : k + (e.endLine - e.startLine + 1) - e.newLines.length < st.doc.length := by
        omega
      constructor
      · unfold incrStates0
        rw [spliceVec_tail hse helS hnn1 hkge]
        rw [hfs0, fullStates_getD g cfg hkOld]
        rw [hchain (k + 1) (by omega) (by omega)]
        congr 1
        omega
      · unfold incrLines0
        rw [spliceVec_tail hse helH hnn1 hkge]
        refine lineEqModLI_trans
          (hmod0 (k + (e.endLine - e.startLine + 1) - e.newLines.length)) ?_
        rw [fullLines_getD g cfg hkOld]
        rw [fullLines_getD g cfg (show k < (applyEdit st.doc e).length from hk2)]
        unfold rerunResult
        rw [applyEdit_tail ⟨hse, hel, hnn⟩ hkge]
        rw [Nat.sub_zero, Nat.sub_zero]
        rw [hchain k (by omega) (by omega)]
        exact analyzeLine_modLI g cfg _ _ _ rfl
  have hpre : ∀ k, k < e.startLine →
      ((incrStates0 st e).getD k 0 =
        rerunStartFrom g cfg (applyEdit st.doc e) 0 SyntaxRule.kDefaultStateId (k + 1) ∧
       lineEqModLI ((incrLines0 st e).getD k {})
        ((fullLines g cfg (applyEdit st.doc e)).getD k {})) := by
    intro k hk
    have hklen0 : k < st.doc.length := by omega
    have hklen' : k < (applyEdit st.doc e).length := by omega
    constructor
    · unfold incrStates0
      rw [spliceVec_front hse helS hk]
      rw [hfs0, fullStates_getD g cfg hklen0]
      exact rerunStartFrom_congr g cfg SyntaxRule.kDefaultStateId (k + 1)
        (fun i hi => (applyEdit_front ⟨hse, hel, hnn⟩ (by omega)).symm)
    · unfold incrLines0
      rw [spliceVec_front hse helH hk]
      refine lineEqModLI_trans (hmod0 k) ?_
      rw [fullLines_getD g cfg hklen0, fullLines_getD g cfg hklen']
      unfold rerunResult
      rw [Nat.sub_zero]
      rw [show (applyEdit st.doc e).getD k {} = st.doc.getD k {} from
        applyEdit_front ⟨hse, hel, hnn⟩ hk]
      rw [show rerunStartFrom g cfg (applyEdit st.doc e) 0 SyntaxRule.kDefaultStateId k =
          rerunStartFrom g cfg st.doc 0 SyntaxRule.kDefaultStateId k from
        rerunStartFrom_congr g cfg SyntaxRule.kDefaultStateId k
          (fun i hi => applyEdit_front ⟨hse, hel, hnn⟩ (by omega))]
      exact analyzeLine_modLI g cfg _ _ _ rfl
  have hmid : ∀ k, e.startLine ≤ k → k < (incrLoopCall g cfg st e).1 →
      ((incrLoopCall g cfg st e).2.2.1.getD k 0 =
        rerunStartFrom g cfg (applyEdit st.doc e) 0 SyntaxRule.kDefaultStateId (k + 1) ∧
       (incrLoopCall g cfg st e).2.2.2.getD k {} =
        (fullLines g cfg (applyEdit st.doc e)).getD k {}) := by
    intro k hk1 hk2
    have hk3 : k < (applyEdit st.doc e).length := by omega
    obtain ⟨hS, hH⟩ := c7 k hk1 hk2
    constructor
    · rw [hS, hrr k hk1, rerunResult_end]
    · rw [hH, hrr k hk1, fullLines_getD g cfg hk3]
  have hA : (incrLoopCall g cfg st e).2.2.1 = fullStates g cfg (applyEdit st.doc e) := by
    refine list_eq_of_getD 0 (by rw [c4, fullStates_length]) ?_
    intro k hk
    rw [c4] at hk
    rw [fullStates_getD g cfg hk]
    by_cases hk1 : k < e.startLine
    · rw [(c6 k (Or.inl hk1)).1]
      exact (hpre k hk1).1
    · by_cases hk2 : k < (incrLoopCall g cfg st e).1
      · exact (hmid k (by omega) hk2).1
      · rw [(c6 k (Or.inr (by omega))).1]
        exact (htail k (by omega) hk).1
  have hmod1 : ∀ k, lineEqModLI ((incrLoopCall g cfg st e).2.2.2.getD k {})
      ((fullLines g cfg (applyEdit st.doc e)).getD k {}) := by
    intro k
    by_cases hk : k < (applyEdit st.doc e).length
    · by_cases hk1 : k < e.startLine
      · rw [(c6 k (Or.inl hk1)).2]
        exact (hpre k hk1).2
      · by_cases hk2 : k < (incrLoopCall g cfg st e).1
        · exact lineEqModLI_of_eq (hmid k (by omega) hk2).2
        · rw [(c6 k (Or.inr (by omega))).2]
          exact (htail k (by omega) hk).2
    · rw [getD_of_len_le (show (incrLoopCall g cfg st e).2.2.2.length ≤ k from by
          rw [c5]; omega),
        getD_of_len_le (show (fullLines g cfg (applyEdit st.doc e)).length ≤ k from by
          rw [fullLines_length]; omega)]
      exact lineEqModLI_refl {}
  have hmain : AnalyzerInv g cfg (analyzeHighlightIncremental g cfg st e) := by
    rw [analyzeHighlightIncremental_eq g cfg st e]
    unfold AnalyzerInv
    refine ⟨hA, ?_, ?_, ?_⟩
    · show (if cfg.show_index = true then
          fixupIndices (applyEdit st.doc e)
            ((applyEdit st.doc e).length - (incrLoopCall g cfg st e).1)
            (incrLoopCall g cfg st e).1 (incrLoopCall g cfg st e).2.1
            (incrLoopCall g cfg st e).2.2.2
        else (incrLoopCall g cfg st e).2.2.2).length = (applyEdit st.doc e).length
      by_cases hsi : cfg.show_index = true
      · rw [if_pos hsi, fixupIndices_length, c5]
      · rw [if_neg hsi, c5]
    · intro k
      show lineEqModLI ((if cfg.show_index = true then
          fixupIndices (applyEdit st.doc e)
            ((applyEdit st.doc e).length - (incrLoopCall g cfg st e).1)
            (incrLoopCall g cfg st e).1 (incrLoopCall g cfg st e).2.1
            (incrLoopCall g cfg st e).2.2.2
        else (incrLoopCall g cfg st e).2.2.2).getD k {})
        ((fullLines g cfg (applyEdit st.doc e)).getD k {})
      by_cases hsi : cfg.show_index = true
      · rw [if_pos hsi]
        by_cases hk2 : k < (incrLoopCall g cfg st e).1
        · rw [fixupIndices_getD_untouched _ _ _ _ _ k (Or.inl hk2)]
          exact hmod1 k
        · by_cases hk : k < (applyEdit st.doc e).length
          · rw [fixupIndices_getD_processed (applyEdit st.doc e) _ _ _ _ k rfl c3 c5
              (by omega) hk]
            refine lineEqModLI_trans ?_ (hmod1 k)
            exact forall₂_map_left (reindexSpan_modLI _) _
          · rw [fixupIndices_getD_untouched _ _ _ _ _ k (Or.inr (by omega))]
            exact hmod1 k
      · rw [if_neg hsi]
        exact hmod1 k
    · intro hsi
      show IndexConsistent (applyEdit st.doc e) (if cfg.show_index = true then
          fixupIndices (applyEdit st.doc e)
            ((applyEdit st.doc e).length - (incrLoopCall g cfg st e).1)
            (incrLoopCall g cfg st e).1 (incrLoopCall g cfg st e).2.1
            (incrLoopCall g cfg st e).2.2.2
        else (incrLoopCall g cfg st e).2.2.2)
      rw [if_pos hsi]
      intro k sp hsp
      by_cases hk2 : k < (incrLoopCall g cfg st e).1
      · rw [fixupIndices_getD_untouched _ _ _ _ _ k (Or.inl hk2)] at hsp
        by_cases hk1 : k < e.startLine
        · rw [(c6 k (Or.inl hk1)).2] at hsp
          rw [show (incrLines0 st e).getD k {} = st.highlight.getD k {} from by
            unfold incrLines0
            exact spliceVec_front hse helH hk1 {}] at hsp
          have h4 := hic0 hsi k sp hsp
          rw [charIndexOfLine_applyEdit_front (le_of_lt hk1) (by omega)]
          exact h4
        · rw [(hmid k (by omega) hk2).2,
            fullLines_getD g cfg (show k < (applyEdit st.doc e).length from by omega)]
            at hsp
          have h4 := analyzeLine_span_stamp g cfg _ _ sp hsp
          exact ⟨h4.2.2.1, h4.2.2.2⟩
      · by_cases hk : k < (applyEdit st.doc e).length
        · rw [fixupIndices_getD_processed (applyEdit st.doc e) _ _ _ _ k rfl c3 c5
            (by omega) hk] at hsp
          obtain ⟨sp0, hsp0, rfl⟩ := List.mem_map.1 hsp
          exact ⟨rfl, rfl⟩
        · rw [fixupIndices_getD_untouched _ _ _ _ _ k (Or.inr (by omega)),
            getD_of_len_le (show (incrLoopCall g cfg st e).2.2.2.length ≤ k from by
              rw [c5]; omega)] at hsp
          exact absurd hsp (List.not_mem_nil sp)
  exact ⟨hmain, by rw [analyzeHighlightIncremental_eq g cfg st e]⟩

/-- A full analysis establishes the analyzer invariant (with the highlight
equal to the full one outright). -/
theorem analyzeHighlight_inv (g : SyntaxRule) (cfg : HighlightConfig)
    (doc : List DocumentLine) : AnalyzerInv g cfg (analyzeHighlight g cfg doc) := by
  unfold AnalyzerInv
  refine ⟨rfl, ?_, ?_, ?_⟩
  · show (fullLines g cfg doc).length = doc.length
    exact fullLines_length g cfg doc
  · intro k
    show lineEqModLI ((fullLines g cfg doc).getD k {}) ((fullLines g cfg doc).getD k {})
    exact lineEqModLI_refl _
  · intro hsi
    show IndexConsistent doc (fullLines g cfg doc)
    intro k sp hsp
    by_cases hk : k < doc.length
    · rw [fullLines_getD g cfg hk] at hsp
      have h4 := analyzeLine_span_stamp g cfg _ _ sp hsp
      exact ⟨h4.2.2.1, h4.2.2.2⟩
    · rw [getD_of_len_le (show (fullLines g cfg doc).length ≤ k from by
        rw [fullLines_length]; omega)] at hsp
      exact absurd hsp (List.not_mem_nil sp)

/-- Modelled from the spec: a sequence of edits applied through the
incremental analyzer (spec section 8, invariant 6). -/
def applyEdits (g : SyntaxRule) (cfg : HighlightConfig) (st : AnalyzerState) :
    List EditSpec → AnalyzerState
  | [] => st
  | e :: rest => applyEdits g cfg (analyzeHighlightIncremental g cfg st e) rest

/-- Modelled from the spec: the document after a sequence of patches. -/
def docAfterEdits (doc : List DocumentLine) : List EditSpec → List DocumentLine
  | [] => doc
  | e :: rest => docAfterEdits (applyEdit doc e) rest

instance (e : EditSpec) (doc : List DocumentLine) : Decidable (e.valid doc) :=
  inferInstanceAs (Decidable (e.startLine ≤ e.endLine ∧ e.endLine < doc.length ∧
    e.newLines ≠ []))

/-- Validity of an edit sequence against the running document. -/
def editsValid (doc : List DocumentLine) : List EditSpec → Bool
  | [] => true
  | e :: rest => decide (e.valid doc) && editsValid (applyEdit doc e) rest

/-- The analyzer invariant is preserved along any valid edit sequence. -/
theorem applyEdits_inv (g : SyntaxRule) (cfg : HighlightConfig) :
    ∀ (es : List EditSpec) (st : AnalyzerState), AnalyzerInv g cfg st →
      editsValid st.doc es = true →
      AnalyzerInv g cfg (applyEdits g cfg st es) ∧
      (applyEdits g cfg st es).doc = docAfterEdits st.doc es := by
  intro es
  induction es with
  | nil =>
    intro st h _
    exact ⟨h, rfl⟩
  | cons e rest ih =>
    intro st hinv hval
    simp only [editsValid, Bool.and_eq_true, decide_eq_true_eq] at hval
    obtain ⟨hv, hrest⟩ := hval
    obtain ⟨hinv2, hdoc2⟩ := incrStep g cfg st e hinv hv
    have hres := ih (analyzeHighlightIncremental g cfg st e) hinv2
      (by rw [hdoc2]; exact hrest)
    refine ⟨hres.1, ?_⟩
    show (applyEdits g cfg (analyzeHighlightIncremental g cfg st e) rest).doc =
      docAfterEdits (applyEdit st.doc e) rest
    rw [hres.2, hdoc2]

/-- Concrete grammar/document/edit scenario: `gAB` highlights `a`/`b`
characters; the edit replaces line 0 by two new lines, so every line after
the patched range shifts down by one. -/
def cCfg : HighlightConfig := { show_index := true }

def cDoc : List DocumentLine :=
  [{ text := ['a'], ending := .lf }, { text := [], ending := .lf },
   { text := ['a'], ending := .none }]

def cEdit : EditSpec :=
  { startLine := 0, endLine := 0,
    newLines := [{ text := ['b'], ending := .lf }, { text := ['a'], ending := .lf }] }

/-- C1: for every grammar, document and valid edit sequence applied through
`analyzeHighlightIncremental`, the resulting analyzer state holds the
patched document and the full-analysis state vector, and its highlight
agrees with the one `analyzeHighlight` produces on the final text up to
each span's `line` and `index` fields; when `show_index` is set, the
indices additionally satisfy the slot-based offset invariant (the literal
spec claim — full equality including the stale `line`/`index` fields kept
on lines past the stability point — is refuted by
the concrete scenario of the accompanying counterexample). -/
theorem claim_C1_incremental_refinement (g : SyntaxRule) (cfg : HighlightConfig)
    (doc : List DocumentLine) (es : List EditSpec)
    (hv : editsValid doc es = true) :
    (applyEdits g cfg (analyzeHighlight g cfg doc) es).doc = docAfterEdits doc es ∧
    (applyEdits g cfg (analyzeHighlight g cfg doc) es).line_states =
      (analyzeHighlight g cfg (docAfterEdits doc es)).line_states ∧
    docEqModLI (applyEdits g cfg (analyzeHighlight g cfg doc) es).highlight
      (analyzeHighlight g cfg (docAfterEdits doc es)).highlight ∧
    (cfg.show_index = true →
      IndexConsistent (docAfterEdits doc es)
        (applyEdits g cfg (analyzeHighlight g cfg doc) es).highlight) := by
  have hres := applyEdits_inv g cfg es (analyzeHighlight g cfg doc)
    (analyzeHighlight_inv g cfg doc) hv
  obtain ⟨⟨h1, h2, h3, h4⟩, hdoc⟩ := hres
  refine ⟨hdoc, ?_, ?_, ?_⟩
  · rw [h1, hdoc]
    rfl
  · refine forall₂_lineEqModLI_of_getD ?_ ?_
    · rw [h2, hdoc]
      show (docAfterEdits doc es).length = (fullLines g cfg (docAfterEdits doc es)).length
      rw [fullLines_length]
    · intro k
      have hk := h3 k
      rw [hdoc] at hk
      exact hk
  · intro hsi
    have hk := h4 hsi
    rw [hdoc] at hk
    exact hk

theorem claim_C1_witness :
    editsValid cDoc [cEdit] = true ∧
    (applyEdits gAB cCfg (analyzeHighlight gAB cCfg cDoc) [cEdit]).line_states =
      (analyzeHighlight gAB cCfg (docAfterEdits cDoc [cEdit])).line_states :=
  ⟨by decide, (claim_C1_incremental_refinement gAB cCfg cDoc [cEdit] (by decide)).2.1⟩

theorem claim_C1_counterexample :
    cCfg.show_index = true ∧
    editsValid cDoc [cEdit] = true ∧
    docLinesBeqCode
      (applyEdits gAB cCfg (analyzeHighlight gAB cCfg cDoc) [cEdit]).highlight
      (analyzeHighlight gAB cCfg (docAfterEdits cDoc [cEdit])).highlight = false := by
  decide

/-- C4: the incremental loop is seeded exactly with `S[change_start − 1]`
(the default state at the top), which equals the full-analysis start state
of line `change_start` in the patched document, and it stops re-tokenizing
exactly at the first line past the patched range whose stored end state
and stored `LineHighlight` (under the C++ equality) both coincide with the
newly computed ones (`stopsAt`), or at the end of the document when no
such line exists. -/
theorem claim_C4_stability_and_seed (g : SyntaxRule) (cfg : HighlightConfig)
    (st : AnalyzerState) (e : EditSpec) (hv : e.valid st.doc)
    (hfs : st.line_states = fullStates g cfg st.doc)
    (hll : st.highlight.length = st.doc.length) :
    incrSeed st e =
      rerunStartFrom g cfg (applyEdit st.doc e) 0 SyntaxRule.kDefaultStateId e.startLine ∧
    (analyzeHighlightIncremental g cfg st e).line_states = (incrLoopCall g cfg st e).2.2.1 ∧
    (((incrLoopCall g cfg st e).1 = (applyEdit st.doc e).length ∧
        (∀ k, e.startLine ≤ k → k < (applyEdit st.doc e).length →
          stopsAt g cfg (applyEdit st.doc e) (e.startLine + e.newLines.length - 1)
            e.startLine (incrSeed st e) (incrStates0 st e) (incrLines0 st e) k = false)) ∨
      ((incrLoopCall g cfg st e).1 - 1 < (applyEdit st.doc e).length ∧
        e.startLine ≤ (incrLoopCall g cfg st e).1 - 1 ∧ 1 ≤ (incrLoopCall g cfg st e).1 ∧
        stopsAt g cfg (applyEdit st.doc e) (e.startLine + e.newLines.length - 1)
          e.startLine (incrSeed st e) (incrStates0 st e) (incrLines0 st e)
          ((incrLoopCall g cfg st e).1 - 1) = true ∧
        ∀ k, e.startLine ≤ k → k < (incrLoopCall g cfg st e).1 - 1 →
          stopsAt g cfg (applyEdit st.doc e) (e.startLine + e.newLines.length - 1)
            e.startLine (incrSeed st e) (incrStates0 st e) (incrLines0 st e) k = false)) := by
  obtain ⟨hse, hel, hnn⟩ := hv
  have hnn1 : 1 ≤ e.newLines.length := List.length_pos.mpr hnn
  have hlen0 : st.line_states.length = st.doc.length := by
    rw [hfs, fullStates_length]
  have helS : e.endLine < st.line_states.length := by
    rw [hlen0]
    exact hel
  have helH : e.endLine < st.highlight.length := by
    rw [hll]
    exact hel
  have hlenD : (applyEdit st.doc e).length =
      st.doc.length + e.newLines.length - (e.endLine - e.startLine + 1) :=
    applyEdit_length ⟨hse, hel, hnn⟩
  have hsL : e.startLine ≤ (applyEdit st.doc e).length := by omega
  have hs0len : (incrStates0 st e).length = (applyEdit st.doc e).length := by
    unfold incrStates0
    rw [spliceVec_length hse helS hnn1, hlen0, hlenD]
  have hl0len : (incrLines0 st e).length = (applyEdit st.doc e).length := by
    unfold incrLines0
    rw [spliceVec_length hse helH hnn1, hll, hlenD]
  obtain ⟨c1, c2, c3, c4, c5, c6, c7, c8⟩ :=
    incrementalLoop_spec g cfg (applyEdit st.doc e) (e.startLine + e.newLines.length - 1)
      e.startLine (incrSeed st e) (incrStates0 st e) (incrLines0 st e)
      ((applyEdit st.doc e).length - e.startLine) e.startLine (incrSeed st e)
      (charIndexOfLine (applyEdit st.doc e) e.startLine)
      (incrStates0 st e) (incrLines0 st e)
      (incrLoopCall g cfg st e).1 (incrLoopCall g cfg st e).2.1
      (incrLoopCall g cfg st e).2.2.1 (incrLoopCall g cfg st e).2.2.2
      rfl (le_refl _) hsL
      (by rw [Nat.sub_self]; rfl) rfl hs0len hl0len
      (fun k _ => ⟨rfl, rfl⟩)
      (fun k hk1 hk2 => absurd hk2 (by omega))
      (fun k hk1 hk2 => absurd hk2 (by omega))
      rfl
  exact ⟨incrSeed_eq g cfg st e ⟨hse, hel, hnn⟩ hfs, rfl, c8⟩

theorem claim_C4_witness :
    cEdit.valid (analyzeHighlight gAB cCfg cDoc).doc ∧
    incrSeed (analyzeHighlight gAB cCfg cDoc) cEdit =
      rerunStartFrom gAB cCfg (applyEdit (analyzeHighlight gAB cCfg cDoc).doc cEdit) 0
        SyntaxRule.kDefaultStateId cEdit.startLine :=
  ⟨by decide,
    (claim_C4_stability_and_seed gAB cCfg (analyzeHighlight gAB cCfg cDoc) cEdit
      (by decide) rfl (by decide)).1⟩

/-- C5: whenever `show_index` is set, every span of the highlight — after a
full analysis, and after any valid incremental edit sequence, including the
fixed-up spans past the stability point — has `range.start.index` equal to
the character offset of the line slot it is stored in plus
`range.start.column`, and likewise for the end position.  (The literal spec
formula, which computes the offset from the span's own `range.start.line`
field, fails on tail spans whose stale `line` field is never updated; see
the accompanying counterexample.) -/
theorem claim_C5_index_consistency (g : SyntaxRule) (cfg : HighlightConfig)
    (doc : List DocumentLine) (es : List EditSpec)
    (hv : editsValid doc es = true) (hsi : cfg.show_index = true) :
    IndexConsistent (docAfterEdits doc es)
      (applyEdits g cfg (analyzeHighlight g cfg doc) es).highlight ∧
    IndexConsistent doc (analyzeHighlight g cfg doc).highlight := by
  constructor
  · have hres := applyEdits_inv g cfg es (analyzeHighlight g cfg doc)
      (analyzeHighlight_inv g cfg doc) hv
    obtain ⟨⟨h1, h2, h3, h4⟩, hdoc⟩ := hres
    have hk := h4 hsi
    rw [hdoc] at hk
    exact hk
  · exact (analyzeHighlight_inv g cfg doc).2.2.2 hsi

theorem claim_C5_witness :
    editsValid cDoc [cEdit] = true ∧ cCfg.show_index = true ∧
    IndexConsistent (docAfterEdits cDoc [cEdit])
      (applyEdits gAB cCfg (analyzeHighlight gAB cCfg cDoc) [cEdit]).highlight :=
  ⟨by decide, rfl,
    (claim_C5_index_consistency gAB cCfg cDoc [cEdit] (by decide) rfl).1⟩

theorem claim_C5_counterexample :
    cCfg.show_index = true ∧
    editsValid cDoc [cEdit] = true ∧
    ((applyEdits gAB cCfg (analyzeHighlight gAB cCfg cDoc) [cEdit]).highlight.getD 3
      {}).spans ≠ [] ∧
    (((applyEdits gAB cCfg (analyzeHighlight gAB cCfg cDoc) [cEdit]).highlight.getD 3
        {}).spans.all fun sp =>
      decide (sp.range.start.index ≠
        charIndexOfLine (applyEdits gAB cCfg (analyzeHighlight gAB cCfg cDoc) [cEdit]).doc
          sp.range.start.line + sp.range.start.column)) = true := by
  decide
